import Mathlib

/-!
# Verification of the `eip712` Go library

This file shallowly embeds the core of the `eip712` package (files
`eip712.go`, `fast_encoder.go`, `fast_signer.go`) and proves properties of
the embedded definitions.

Modelling conventions:
* Go maps (`map[string][]Type`, `map[string]interface{}`) are association
  lists; `List.lookup` returns the first binding, matching Go's unique-key
  map semantics.  Iteration order of a Go map is unspecified; the model
  iterates in list order, and every stated property is independent of that
  order.
* Byte slices are `List Nat` with entries < 256.
* External collaborators (Keccak-256, go-ethereum's `apitypes` hashing,
  secp256k1 sign/recover, address hex rendering, `fmt` formatting) are
  fields of an `Ext` record and appear as parameters; contracts about them
  are explicit hypotheses of the theorems.  Hex encoding/decoding of the
  signature at the API boundary (`hexutil`) is bijective, so `Signature`
  stores the raw bytes directly.
* Go's recursive functions on the type graph are modelled with an explicit
  fuel parameter; the fuel supplied by the top-level entry points is proved
  sufficient, so the `noFuel` outcome is unreachable.
-/

namespace Eip712

/-- One field of an EIP-712 type: the Go struct `Type{Name, Type}`. -/
structure GoField where
  name : String
  type : String
deriving DecidableEq, Repr

/-- The caller's schema `map[string][]Type`, as an association list. -/
abbrev Schema := List (String × List GoField)

/-- The names (keys) of the schema map. -/
def typeKeys (types : Schema) : List String := types.map (·.1)

/-- `strings.TrimSuffix(s, "[]")`: drop one trailing `[]` if present,
otherwise return the string unchanged. -/
def trimBrackets (s : String) : String :=
  match s.data.reverse with
  | ']' :: '[' :: rest => String.mk rest.reverse
  | _ => s

/-- `strings.HasPrefix(s, p)`. -/
def strStarts (p s : String) : Bool := p.data.isPrefixOf s.data

/-! ## Cycle detection (`validateNoCycles` / `checkCycle`, eip712.go) -/

/-- Result of one `checkCycle` run: the updated `visited` set, a detected
cycle, or fuel exhaustion (a model artifact, proved unreachable). -/
inductive CycleRes where
  | ok (visited : List String)
  | cycle (msg : String)
  | noFuel
deriving DecidableEq

/-- The field loop inside `checkCycle`: strips one `[]` suffix from the
field type and recurses (through `step`, the partially applied outer DFS)
when the base type is a custom type. -/
def checkCycleFields (types : Schema)
    (step : String → List String → List String → CycleRes) :
    List GoField → List String → List String → CycleRes
  | [], visited, _ => .ok visited
  | f :: rest, visited, inPath =>
    let base := trimBrackets f.type
    if (types.lookup base).isSome then
      match step base visited inPath with
      | .ok visited2 => checkCycleFields types step rest visited2 inPath
      | r => r
    else
      checkCycleFields types step rest visited inPath

/-- Embeds `checkCycle` (eip712.go): DFS with a `visited` set and an
`inPath` recursion stack, both threaded functionally. -/
def checkCycle (types : Schema) : Nat → String → List String → List String → CycleRes
  | 0, _, _, _ => .noFuel
  | fuel + 1, t, visited, inPath =>
    if t ∈ inPath then .cycle ("cyclic reference detected in type: " ++ t)
    else if t ∈ visited then .ok visited
    else
      match types.lookup t with
      | none => .ok (t :: visited)
      | some fields =>
        checkCycleFields types (fun b vis ip => checkCycle types fuel b vis ip)
          fields (t :: visited) (t :: inPath)

/-- Fuel sufficient for `checkCycle` (recursion depth is bounded by the
number of distinct type names). -/
def cycleFuel (types : Schema) : Nat := types.length + 1

/-- The loop of `validateNoCycles` over every key of the schema, threading
the shared `visited` set. -/
def validateLoop (types : Schema) : List String → List String → Option String
  | [], _ => none
  | k :: ks, visited =>
    match checkCycle types (cycleFuel types) k visited [] with
    | .ok visited2 => validateLoop types ks visited2
    | .cycle msg => some msg
    | .noFuel => some "out of fuel"

/-- Embeds `validateNoCycles` (eip712.go): run `checkCycle` from every
defined type name.  Returns `none` when no cycle is found. -/
def validateNoCycles (types : Schema) : Option String :=
  validateLoop types (typeKeys types) []

/-! Sanity checks of the embedding on the repository's own test cases
(cyclic_test.go): direct cycle, indirect cycle, diamond, `[]`-array cycle. -/

example : validateNoCycles [("A", [⟨"self", "A"⟩, ⟨"value", "uint256"⟩])] ≠ none := by decide

example : validateNoCycles
    [("A", [⟨"b", "B"⟩]), ("B", [⟨"c", "C"⟩]), ("C", [⟨"a", "A"⟩])] ≠ none := by decide

example : validateNoCycles
    [("A", [⟨"b", "B"⟩, ⟨"c", "C"⟩]), ("B", [⟨"d", "D"⟩]), ("C", [⟨"d", "D"⟩]),
     ("D", [⟨"value", "uint256"⟩])] = none := by decide

example : validateNoCycles
    [("Node", [⟨"children", "Node[]"⟩, ⟨"value", "uint256"⟩])] ≠ none := by decide

example : validateNoCycles [("A", [⟨"x", "A[2]"⟩])] = none := by decide

/-! ## The reference graph walked by `checkCycle` -/

/-- Successors of a type name in the reference graph that `checkCycle`
walks: field types with one trailing `[]` stripped, kept when they name a
defined type. -/
def succs (types : Schema) (t : String) : List String :=
  match types.lookup t with
  | none => []
  | some fields =>
    (fields.map (fun f => trimBrackets f.type)).filter (fun b => (types.lookup b).isSome)

/-- Reachability (by a nonempty path) in the reference graph. -/
inductive Reach (types : Schema) : String → String → Prop where
  | single {t u : String} : u ∈ succs types t → Reach types t u
  | head {t u v : String} : u ∈ succs types t → Reach types u v → Reach types t v

theorem Reach.trans {types : Schema} {a b c : String}
    (h1 : Reach types a b) (h2 : Reach types b c) : Reach types a c := by
  induction h1 with
  | single h => exact Reach.head h h2
  | head h _ ih => exact Reach.head h (ih h2)

theorem Reach.snoc {types : Schema} {a b c : String}
    (h1 : Reach types a b) (h2 : c ∈ succs types b) : Reach types a c :=
  h1.trans (Reach.single h2)

theorem succs_lookup_none {types : Schema} {t : String}
    (h : types.lookup t = none) : succs types t = [] := by
  simp [succs, h]

theorem lookup_isSome_of_mem_succs {types : Schema} {t u : String}
    (h : u ∈ succs types t) : (types.lookup t).isSome := by
  unfold succs at h
  cases hl : types.lookup t <;> simp [hl] at h ⊢

theorem lookup_isSome_iff_mem_typeKeys {types : Schema} {t : String} :
    (types.lookup t).isSome ↔ t ∈ typeKeys types := by
  induction types with
  | nil => simp [typeKeys]
  | cons p rest ih =>
    cases h : (t == p.1) with
    | true =>
      have ht : t = p.1 := eq_of_beq h
      simp [typeKeys, List.lookup, h, ht]
    | false =>
      have ht : t ≠ p.1 := ne_of_beq_false h
      simp only [typeKeys, List.map_cons, List.mem_cons, List.lookup, h]
      simp only [typeKeys] at ih
      simp [ih, ht]

theorem mem_succs_iff {types : Schema} {t u : String} {fields : List GoField}
    (h : types.lookup t = some fields) :
    u ∈ succs types t ↔
      ∃ f ∈ fields, trimBrackets f.type = u ∧ (types.lookup u).isSome := by
  simp only [succs, h, List.mem_filter, List.mem_map]
  constructor
  · rintro ⟨⟨f, hf, rfl⟩, hsome⟩; exact ⟨f, hf, rfl, hsome⟩
  · rintro ⟨f, hf, rfl, hsome⟩; exact ⟨⟨f, hf, rfl⟩, hsome⟩

/-! ## Correctness of `checkCycle` / `validateNoCycles` -/

/-- DFS invariant: the recursion stack is a subset of the visited set, and
every finished ("black") vertex has only black successors and lies on no
cycle. -/
structure CycleInv (types : Schema) (visited inPath : List String) : Prop where
  stack_subset : ∀ v ∈ inPath, v ∈ visited
  black_closed : ∀ v, v ∈ visited → v ∉ inPath →
    ∀ u ∈ succs types v, u ∈ visited ∧ u ∉ inPath
  black_acyclic : ∀ v, v ∈ visited → v ∉ inPath → ¬ Reach types v v

theorem reach_stays_black {types : Schema} {visited inPath : List String}
    (hclosed : ∀ v, v ∈ visited → v ∉ inPath →
      ∀ u ∈ succs types v, u ∈ visited ∧ u ∉ inPath)
    {a b : String} (hreach : Reach types a b) (ha : a ∈ visited)
    (hna : a ∉ inPath) : b ∈ visited ∧ b ∉ inPath := by
  induction hreach with
  | single h => exact hclosed _ ha hna _ h
  | head h _ ih =>
    obtain ⟨h1, h2⟩ := hclosed _ ha hna _ h
    exact ih h1 h2

/-- Specification of a successful `checkCycle` call. -/
def CyclePost (types : Schema) (fuel : Nat) : Prop :=
  ∀ t visited inPath visited2, CycleInv types visited inPath →
    checkCycle types fuel t visited inPath = .ok visited2 →
    (∀ x ∈ visited, x ∈ visited2) ∧ t ∈ visited2 ∧ t ∉ inPath ∧
      CycleInv types visited2 inPath

/-- Specification of a successful `checkCycleFields` loop. -/
def FieldsPost (types : Schema) (fuel : Nat) : Prop :=
  ∀ fields visited inPath visited2, CycleInv types visited inPath →
    checkCycleFields types (fun b vis ip => checkCycle types fuel b vis ip)
      fields visited inPath = .ok visited2 →
    (∀ x ∈ visited, x ∈ visited2) ∧ CycleInv types visited2 inPath ∧
      ∀ f ∈ fields, (types.lookup (trimBrackets f.type)).isSome →
        trimBrackets f.type ∈ visited2 ∧ trimBrackets f.type ∉ inPath

theorem cyclePost_zero (types : Schema) : CyclePost types 0 := by
  intro t visited inPath visited2 _ h
  simp [checkCycle] at h

theorem fieldsPost_of_cyclePost (types : Schema) (fuel : Nat)
    (hc : CyclePost types fuel) : FieldsPost types fuel := by
  intro fields
  induction fields with
  | nil =>
    intro visited inPath visited2 hinv h
    simp only [checkCycleFields] at h
    cases h
    exact ⟨fun x hx => hx, hinv, by simp⟩
  | cons f rest ih =>
    intro visited inPath visited2 hinv h
    simp only [checkCycleFields] at h
    by_cases hcustom : (types.lookup (trimBrackets f.type)).isSome
    · rw [if_pos hcustom] at h
      cases hstep : checkCycle types fuel (trimBrackets f.type) visited inPath with
      | ok visited3 =>
        rw [hstep] at h
        obtain ⟨hgrow1, hbase, hnb, hinv3⟩ := hc _ _ _ _ hinv hstep
        obtain ⟨hgrow2, hinv2, hrest⟩ := ih _ _ _ hinv3 h
        refine ⟨fun x hx => hgrow2 _ (hgrow1 _ hx), hinv2, ?_⟩
        intro g hg hgc
        rcases List.mem_cons.mp hg with rfl | hg
        · exact ⟨hgrow2 _ hbase, hnb⟩
        · exact hrest g hg hgc
      | cycle msg => rw [hstep] at h; cases h
      | noFuel => rw [hstep] at h; cases h
    · rw [if_neg hcustom] at h
      obtain ⟨hgrow, hinv2, hrest⟩ := ih _ _ _ hinv h
      refine ⟨hgrow, hinv2, ?_⟩
      intro g hg hgc
      rcases List.mem_cons.mp hg with rfl | hg
      · exact absurd hgc hcustom
      · exact hrest g hg hgc

theorem cyclePost_succ (types : Schema) (fuel : Nat)
    (hf : FieldsPost types fuel) : CyclePost types (fuel + 1) := by
  intro t visited inPath visited2 hinv h
  simp only [checkCycle] at h
  by_cases hip : t ∈ inPath
  · rw [if_pos hip] at h; cases h
  rw [if_neg hip] at h
  by_cases hvis : t ∈ visited
  · rw [if_pos hvis] at h
    cases h
    exact ⟨fun x hx => hx, hvis, hip, hinv⟩
  rw [if_neg hvis] at h
  cases hl : types.lookup t with
  | none =>
    rw [hl] at h
    cases h
    have hsnil := succs_lookup_none hl
    refine ⟨fun x hx => List.mem_cons_of_mem _ hx, List.mem_cons_self _ _, hip, ?_⟩
    refine ⟨fun v hv => List.mem_cons_of_mem _ (hinv.stack_subset v hv), ?_, ?_⟩
    · intro v hv hnv u hu
      rcases List.mem_cons.mp hv with rfl | hv
      · rw [hsnil] at hu; cases hu
      · obtain ⟨h1, h2⟩ := hinv.black_closed v hv hnv u hu
        exact ⟨List.mem_cons_of_mem _ h1, h2⟩
    · intro v hv hnv hr
      rcases List.mem_cons.mp hv with rfl | hv
      · cases hr with
        | single hu => rw [hsnil] at hu; cases hu
        | head hu _ => rw [hsnil] at hu; cases hu
      · exact hinv.black_acyclic v hv hnv hr
  | some fields =>
    rw [hl] at h
    have hinv1 : CycleInv types (t :: visited) (t :: inPath) := by
      refine ⟨?_, ?_, ?_⟩
      · intro v hv
        rcases List.mem_cons.mp hv with rfl | hv
        · exact List.mem_cons_self _ _
        · exact List.mem_cons_of_mem _ (hinv.stack_subset v hv)
      · intro v hv hnv u hu
        have hvt : v ≠ t := fun heq => hnv (heq ▸ List.mem_cons_self _ _)
        have hv2 : v ∈ visited := by
          rcases List.mem_cons.mp hv with rfl | hv
          · exact absurd rfl hvt
          · exact hv
        have hnv2 : v ∉ inPath := fun hx => hnv (List.mem_cons_of_mem _ hx)
        obtain ⟨h1, h2⟩ := hinv.black_closed v hv2 hnv2 u hu
        have hut : u ≠ t := fun heq => hvis (heq ▸ h1)
        exact ⟨List.mem_cons_of_mem _ h1, by
          intro hx
          rcases List.mem_cons.mp hx with rfl | hx
          · exact hut rfl
          · exact h2 hx⟩
      · intro v hv hnv hr
        have hvt : v ≠ t := fun heq => hnv (heq ▸ List.mem_cons_self _ _)
        have hv2 : v ∈ visited := by
          rcases List.mem_cons.mp hv with rfl | hv
          · exact absurd rfl hvt
          · exact hv
        exact hinv.black_acyclic v hv2 (fun hx => hnv (List.mem_cons_of_mem _ hx)) hr
    obtain ⟨hgrow, hinv2, hbases⟩ := hf _ _ _ _ hinv1 h
    have hbase_mem : ∀ u ∈ succs types t, u ∈ visited2 ∧ u ∉ t :: inPath := by
      intro u hu
      obtain ⟨f, hfmem, hftrim, hsome⟩ := (mem_succs_iff hl).mp hu
      have := hbases f hfmem (hftrim ▸ hsome)
      rw [hftrim] at this
      exact this
    have htv2 : t ∈ visited2 := hgrow _ (List.mem_cons_self _ _)
    refine ⟨fun x hx => hgrow _ (List.mem_cons_of_mem _ hx), htv2, hip, ?_, ?_, ?_⟩
    · intro v hv
      exact hinv2.stack_subset v (List.mem_cons_of_mem _ hv)
    · intro v hv hnv u hu
      by_cases hvt : v = t
      · subst hvt
        obtain ⟨h1, h2⟩ := hbase_mem u hu
        exact ⟨h1, fun hx => h2 (List.mem_cons_of_mem _ hx)⟩
      · have hnv2 : v ∉ t :: inPath := by
          intro hx
          rcases List.mem_cons.mp hx with rfl | hx
          · exact hvt rfl
          · exact hnv hx
        obtain ⟨h1, h2⟩ := hinv2.black_closed v hv hnv2 u hu
        exact ⟨h1, fun hx => h2 (List.mem_cons_of_mem _ hx)⟩
    · intro v hv hnv hr
      by_cases hvt : v = t
      · subst hvt
        cases hr with
        | single hu =>
          obtain ⟨_, h2⟩ := hbase_mem _ hu
          exact h2 (List.mem_cons_self _ _)
        | head hu hr2 =>
          obtain ⟨h1, h2⟩ := hbase_mem _ hu
          obtain ⟨_, h4⟩ := reach_stays_black hinv2.black_closed hr2 h1 h2
          exact h4 (List.mem_cons_self _ _)
      · have hnv2 : v ∉ t :: inPath := by
          intro hx
          rcases List.mem_cons.mp hx with rfl | hx
          · exact hvt rfl
          · exact hnv hx
        exact hinv2.black_acyclic v hv hnv2 hr

theorem cyclePost (types : Schema) : ∀ fuel, CyclePost types fuel := by
  intro fuel
  induction fuel with
  | zero => exact cyclePost_zero types
  | succ n ih => exact cyclePost_succ types n (fieldsPost_of_cyclePost types n ih)

/-- The recursion stack is a chain of graph edges ending at the current
vertex. -/
inductive Chain (types : Schema) : List String → String → Prop where
  | nil {t : String} : Chain types [] t
  | cons {p : String} {ps : List String} {t : String} :
      t ∈ succs types p → Chain types ps p → Chain types (p :: ps) t

theorem chain_mem_reach {types : Schema} :
    ∀ {l : List String} {t u : String}, Chain types l t → u ∈ l → Reach types u t := by
  intro l
  induction l with
  | nil => intro t u _ hu; cases hu
  | cons p ps ih =>
    intro t u hch hu
    cases hch with
    | cons hedge hch2 =>
      rcases List.mem_cons.mp hu with rfl | hu
      · exact Reach.single hedge
      · exact (ih hch2 hu).snoc hedge

/-- A cycle error is only reported when the graph really has a cycle. -/
def CycleErrPost (types : Schema) (fuel : Nat) : Prop :=
  ∀ t visited inPath msg, Chain types inPath t →
    checkCycle types fuel t visited inPath = .cycle msg → ∃ c, Reach types c c

def FieldsErrPost (types : Schema) (fuel : Nat) : Prop :=
  ∀ t rest fields visited msg, Chain types rest t →
    (∀ f ∈ fields, (types.lookup (trimBrackets f.type)).isSome →
      trimBrackets f.type ∈ succs types t) →
    checkCycleFields types (fun b vis ip => checkCycle types fuel b vis ip)
      fields visited (t :: rest) = .cycle msg →
    ∃ c, Reach types c c

theorem cycleErrPost_zero (types : Schema) : CycleErrPost types 0 := by
  intro t visited inPath msg _ h
  simp [checkCycle] at h

theorem fieldsErrPost_of_cycleErrPost (types : Schema) (fuel : Nat)
    (hc : CycleErrPost types fuel) : FieldsErrPost types fuel := by
  intro t rest fields
  induction fields with
  | nil =>
    intro visited msg _ _ h
    simp [checkCycleFields] at h
  | cons f frest ih =>
    intro visited msg hch hbases h
    simp only [checkCycleFields] at h
    by_cases hcustom : (types.lookup (trimBrackets f.type)).isSome
    · rw [if_pos hcustom] at h
      cases hstep : checkCycle types fuel (trimBrackets f.type) visited (t :: rest) with
      | ok visited3 =>
        rw [hstep] at h
        exact ih _ _ hch (fun g hg hgc => hbases g (List.mem_cons_of_mem _ hg) hgc) h
      | cycle msg2 =>
        exact hc _ _ _ _ (Chain.cons (hbases f (List.mem_cons_self _ _) hcustom) hch) hstep
      | noFuel => rw [hstep] at h; cases h
    · rw [if_neg hcustom] at h
      exact ih _ _ hch (fun g hg hgc => hbases g (List.mem_cons_of_mem _ hg) hgc) h

theorem cycleErrPost_succ (types : Schema) (fuel : Nat)
    (hf : FieldsErrPost types fuel) : CycleErrPost types (fuel + 1) := by
  intro t visited inPath msg hch h
  simp only [checkCycle] at h
  by_cases hip : t ∈ inPath
  · exact ⟨t, chain_mem_reach hch hip⟩
  rw [if_neg hip] at h
  by_cases hvis : t ∈ visited
  · rw [if_pos hvis] at h; cases h
  rw [if_neg hvis] at h
  cases hl : types.lookup t with
  | none => rw [hl] at h; cases h
  | some fields =>
    rw [hl] at h
    refine hf t inPath fields (t :: visited) msg hch ?_ h
    intro g hg hgc
    exact (mem_succs_iff hl).mpr ⟨g, hg, rfl, hgc⟩

theorem cycleErrPost (types : Schema) : ∀ fuel, CycleErrPost types fuel := by
  intro fuel
  induction fuel with
  | zero => exact cycleErrPost_zero types
  | succ n ih => exact cycleErrPost_succ types n (fieldsErrPost_of_cycleErrPost types n ih)

/-! Fuel sufficiency: with `cycleFuel` the `noFuel` outcome is unreachable. -/

theorem nodup_subset_length_le {l m : List String}
    (hn : l.Nodup) (hsub : ∀ x ∈ l, x ∈ m) : l.length ≤ m.dedup.length := by
  have h1 : l.toFinset.card = l.length := List.toFinset_card_of_nodup hn
  have h2 : m.toFinset.card = m.dedup.length := List.card_toFinset m
  have h3 : l.toFinset ⊆ m.toFinset := by
    intro x hx
    exact List.mem_toFinset.mpr (hsub x (List.mem_toFinset.mp hx))
  have h4 := Finset.card_le_card h3
  omega

def CycleFuelPost (types : Schema) (fuel : Nat) : Prop :=
  ∀ t visited inPath, inPath.Nodup → (∀ x ∈ inPath, x ∈ typeKeys types) →
    (typeKeys types).dedup.length + 1 ≤ fuel + inPath.length →
    checkCycle types fuel t visited inPath ≠ .noFuel

def FieldsFuelPost (types : Schema) (fuel : Nat) : Prop :=
  ∀ fields visited inPath, inPath.Nodup → (∀ x ∈ inPath, x ∈ typeKeys types) →
    (typeKeys types).dedup.length + 1 ≤ fuel + inPath.length →
    checkCycleFields types (fun b vis ip => checkCycle types fuel b vis ip)
      fields visited inPath ≠ .noFuel

theorem cycleFuelPost_zero (types : Schema) : CycleFuelPost types 0 := by
  intro t visited inPath hnd hsub harith
  have := nodup_subset_length_le hnd hsub
  omega

theorem fieldsFuelPost_zero (types : Schema) : FieldsFuelPost types 0 := by
  intro fields visited inPath hnd hsub harith
  have := nodup_subset_length_le hnd hsub
  omega

theorem fieldsFuelPost_of_cycleFuelPost (types : Schema) (fuel : Nat)
    (hc : CycleFuelPost types fuel) : FieldsFuelPost types fuel := by
  intro fields
  induction fields with
  | nil =>
    intro visited inPath _ _ _
    simp [checkCycleFields]
  | cons f rest ih =>
    intro visited inPath hnd hsub harith
    simp only [checkCycleFields]
    by_cases hcustom : (types.lookup (trimBrackets f.type)).isSome
    · rw [if_pos hcustom]
      cases hstep : checkCycle types fuel (trimBrackets f.type) visited inPath with
      | ok visited2 => exact ih visited2 inPath hnd hsub harith
      | cycle msg => simp
      | noFuel => exact absurd hstep (hc _ _ _ hnd hsub harith)
    · rw [if_neg hcustom]
      exact ih visited inPath hnd hsub harith

theorem cycleFuelPost_succ (types : Schema) (fuel : Nat)
    (hf : FieldsFuelPost types fuel) : CycleFuelPost types (fuel + 1) := by
  intro t visited inPath hnd hsub harith
  simp only [checkCycle]
  by_cases hip : t ∈ inPath
  · simp [hip]
  rw [if_neg hip]
  by_cases hvis : t ∈ visited
  · simp [hvis]
  rw [if_neg hvis]
  cases hl : types.lookup t with
  | none => simp
  | some fields =>
    refine hf fields (t :: visited) (t :: inPath) (List.nodup_cons.mpr ⟨hip, hnd⟩) ?_ ?_
    · intro x hx
      rcases List.mem_cons.mp hx with rfl | hx
      · exact lookup_isSome_iff_mem_typeKeys.mp (by simp [hl])
      · exact hsub x hx
    · simp only [List.length_cons]
      omega

theorem cycleFuelPost (types : Schema) : ∀ fuel, CycleFuelPost types fuel := by
  intro fuel
  induction fuel with
  | zero => exact cycleFuelPost_zero types
  | succ n ih => exact cycleFuelPost_succ types n (fieldsFuelPost_of_cycleFuelPost types n ih)

/-! Assembly: `validateNoCycles` returns no error exactly on acyclic graphs. -/

theorem validateLoop_none_post (types : Schema) :
    ∀ ks visited, CycleInv types visited [] →
      validateLoop types ks visited = none →
      ∃ visited2, CycleInv types visited2 [] ∧ (∀ x ∈ visited, x ∈ visited2) ∧
        ∀ k ∈ ks, k ∈ visited2 := by
  intro ks
  induction ks with
  | nil =>
    intro visited hinv _
    exact ⟨visited, hinv, fun x hx => hx, by simp⟩
  | cons k ks ih =>
    intro visited hinv h
    simp only [validateLoop] at h
    cases hstep : checkCycle types (cycleFuel types) k visited [] with
    | ok visited2 =>
      rw [hstep] at h
      obtain ⟨hgrow, hk, _, hinv2⟩ := cyclePost types _ _ _ _ _ hinv hstep
      obtain ⟨visited3, hinv3, hgrow2, hks⟩ := ih visited2 hinv2 h
      refine ⟨visited3, hinv3, fun x hx => hgrow2 _ (hgrow _ hx), ?_⟩
      intro g hg
      rcases List.mem_cons.mp hg with rfl | hg
      · exact hgrow2 _ hk
      · exact hks g hg
    | cycle msg => rw [hstep] at h; cases h
    | noFuel => rw [hstep] at h; cases h

theorem validateLoop_of_acyclic (types : Schema)
    (hacyc : ∀ t, ¬ Reach types t t) :
    ∀ ks visited, validateLoop types ks visited = none := by
  intro ks
  induction ks with
  | nil => intro visited; rfl
  | cons k ks ih =>
    intro visited
    simp only [validateLoop]
    cases hstep : checkCycle types (cycleFuel types) k visited [] with
    | ok visited2 => exact ih visited2
    | cycle msg =>
      obtain ⟨c, hc⟩ := cycleErrPost types _ _ _ _ _ Chain.nil hstep
      exact absurd hc (hacyc c)
    | noFuel =>
      have hfuel := cycleFuelPost types (cycleFuel types) k visited []
        List.nodup_nil (by simp) (by
          have h1 : (typeKeys types).dedup.length ≤ (typeKeys types).length :=
            (List.dedup_sublist _).length_le
          have h2 : (typeKeys types).length = types.length := List.length_map _ _
          simp only [cycleFuel, List.length_nil]
          omega)
      exact absurd hstep hfuel

/-- `validateNoCycles` accepts a schema exactly when the reference graph
walked by `checkCycle` is acyclic. -/
theorem validateNoCycles_none_iff (types : Schema) :
    validateNoCycles types = none ↔ ∀ t, ¬ Reach types t t := by
  constructor
  · intro h t hr
    obtain ⟨visited2, hinv2, _, hks⟩ :=
      validateLoop_none_post types (typeKeys types) []
        ⟨by simp, by simp, by simp⟩ h
    have ht : t ∈ typeKeys types := by
      have hsome : (types.lookup t).isSome := by
        cases hr with
        | single hu => exact lookup_isSome_of_mem_succs hu
        | head hu _ => exact lookup_isSome_of_mem_succs hu
      exact lookup_isSome_iff_mem_typeKeys.mp hsome
    exact hinv2.black_acyclic t (hks t ht) (by simp) hr
  · intro hacyc
    exact validateLoop_of_acyclic types hacyc (typeKeys types) []


/-! ## Dependencies and the canonical type encoding (fast_encoder.go) -/

/-- The field loop of `findDependencies`: strips one `[]` suffix and
recurses (through `step`) on custom base types, threading the accumulated
dependency set. -/
def findDepsFields (types : Schema) (step : String → List String → List String) :
    List GoField → List String → List String
  | [], deps => deps
  | f :: rest, deps =>
    let base := trimBrackets f.type
    if (types.lookup base).isSome then
      findDepsFields types step rest (step base deps)
    else
      findDepsFields types step rest deps

/-- Embeds `findDependencies` (fast_encoder.go): accumulate the custom
types reachable from `t`. -/
def findDependencies (types : Schema) : Nat → String → List String → List String
  | 0, _, deps => deps
  | fuel + 1, t, deps =>
    if t ∈ deps then deps
    else
      match types.lookup t with
      | none => deps
      | some fields =>
        findDepsFields types (fun b d => findDependencies types fuel b d)
          fields (t :: deps)

/-- Fuel sufficient for `findDependencies`. -/
def depsFuel (types : Schema) : Nat := types.length + 1

/-- Lexicographic comparison of character lists by code point.  This is
the order `sort.Strings` uses (byte-wise over UTF-8), identical on the
ASCII type names EIP-712 schemas use. -/
def charListLe : List Char → List Char → Bool
  | [], _ => true
  | _ :: _, [] => false
  | a :: as, b :: bs =>
    if a.toNat < b.toNat then true
    else if b.toNat < a.toNat then false
    else charListLe as bs

/-- Lexicographic order on strings. -/
def strLe (a b : String) : Bool := charListLe a.data b.data

/-- Insertion into a sorted list of strings. -/
def insertSorted (a : String) : List String → List String
  | [] => [a]
  | b :: rest => if strLe a b then a :: b :: rest else b :: insertSorted a rest

/-- Model of the external stdlib `sort.Strings`: ascending lexicographic
sort.  (Any correct sort is an adequate model; on duplicate-free input the
sorted permutation is unique.) -/
def sortStrings : List String → List String
  | [] => []
  | a :: rest => insertSorted a (sortStrings rest)

/-- Embeds `dependencies` (fast_encoder.go): the dependency set of `t`,
sorted lexicographically.  The global cache only memoizes this value; the
model is the computing path. -/
def dependencies (types : Schema) (t : String) : List String :=
  sortStrings (findDependencies types (depsFuel types) t [])

/-- One field as rendered by `encodeType`: a single space between type and
name. -/
def renderField (f : GoField) : String := f.type ++ " " ++ f.name

/-- One type declaration as rendered by `encodeType`:
`Name(fieldType fieldName,...)` — fields in declared order, a single comma
between fields, no trailing comma, empty parentheses for zero fields. -/
def renderDecl (types : Schema) (u : String) : String :=
  u ++ "(" ++ String.intercalate "," (((types.lookup u).getD []).map renderField) ++ ")"

/-- Embeds `encodeType` (fast_encoder.go): the primary type declaration
first, then every other dependency in sorted order, concatenated with no
separator. -/
def encodeType (types : Schema) (t : String) : Except String String :=
  match types.lookup t with
  | none => .error ("type " ++ t ++ " not found")
  | some _ =>
    .ok (String.join
      ((t :: (dependencies types t).filter (fun d => d ≠ t)).map (renderDecl types)))

/-! Sanity check on the EIP-712 Mail schema. -/

example :
    encodeType [("Mail", [⟨"from", "Person"⟩, ⟨"to", "Person"⟩, ⟨"contents", "string"⟩]),
      ("Person", [⟨"name", "string"⟩, ⟨"wallet", "address"⟩])] "Mail" =
    .ok "Mail(Person from,Person to,string contents)Person(string name,address wallet)" := rfl

example : encodeType [("Empty", [])] "Empty" = .ok "Empty()" := rfl

/-! ### Properties of the sort -/

theorem mem_insertSorted {a x : String} :
    ∀ {l : List String}, x ∈ insertSorted a l ↔ x = a ∨ x ∈ l := by
  intro l
  induction l with
  | nil => simp [insertSorted]
  | cons b rest ih =>
    by_cases h : strLe a b = true
    · simp [insertSorted, h]
    · simp only [insertSorted, if_neg h, List.mem_cons, ih]
      tauto

theorem mem_sortStrings {x : String} :
    ∀ {l : List String}, x ∈ sortStrings l ↔ x ∈ l := by
  intro l
  induction l with
  | nil => simp [sortStrings]
  | cons a rest ih => simp [sortStrings, mem_insertSorted, ih]

theorem charListLe_trans :
    ∀ {a b c : List Char}, charListLe a b = true → charListLe b c = true →
      charListLe a c = true := by
  intro a
  induction a with
  | nil => intro b c _ _; rfl
  | cons x xs ih =>
    intro b c hab hbc
    cases b with
    | nil => simp [charListLe] at hab
    | cons y ys =>
      cases c with
      | nil => simp [charListLe] at hbc
      | cons z zs =>
        simp only [charListLe] at hab hbc ⊢
        by_cases hxy : x.toNat < y.toNat
        · by_cases hyz : y.toNat < z.toNat
          · rw [if_pos (by omega)]
          · rw [if_neg hyz] at hbc
            by_cases hzy : z.toNat < y.toNat
            · rw [if_pos hzy] at hbc; cases hbc
            · rw [if_pos (by omega)]
        · rw [if_neg hxy] at hab
          by_cases hyx : y.toNat < x.toNat
          · rw [if_pos hyx] at hab; cases hab
          · rw [if_neg hyx] at hab
            by_cases hyz : y.toNat < z.toNat
            · rw [if_pos (by omega)]
            · rw [if_neg hyz] at hbc
              by_cases hzy : z.toNat < y.toNat
              · rw [if_pos hzy] at hbc; cases hbc
              · rw [if_neg hzy] at hbc
                rw [if_neg (by omega), if_neg (by omega)]
                exact ih hab hbc

theorem charListLe_total :
    ∀ (a b : List Char), charListLe a b = true ∨ charListLe b a = true := by
  intro a
  induction a with
  | nil => intro b; left; rfl
  | cons x xs ih =>
    intro b
    cases b with
    | nil => right; rfl
    | cons y ys =>
      simp only [charListLe]
      by_cases hxy : x.toNat < y.toNat
      · left; rw [if_pos hxy]
      · by_cases hyx : y.toNat < x.toNat
        · right; rw [if_pos hyx]
        · rw [if_neg hxy, if_neg hyx, if_neg hyx, if_neg hxy]
          exact ih ys

theorem strLe_trans {a b c : String} (h1 : strLe a b = true)
    (h2 : strLe b c = true) : strLe a c = true :=
  charListLe_trans h1 h2

theorem strLe_total (a b : String) : strLe a b = true ∨ strLe b a = true :=
  charListLe_total a.data b.data

/-- Sortedness with respect to the lexicographic order. -/
def SortedLe (l : List String) : Prop := l.Sorted (fun a b => strLe a b = true)

theorem sorted_insertSorted {a : String} :
    ∀ {l : List String}, SortedLe l → SortedLe (insertSorted a l) := by
  intro l
  induction l with
  | nil => intro _; simp [insertSorted, SortedLe]
  | cons b rest ih =>
    intro hs
    rw [SortedLe, List.sorted_cons] at hs
    obtain ⟨hb, hrest⟩ := hs
    by_cases h : strLe a b = true
    · rw [insertSorted, if_pos h, SortedLe, List.sorted_cons]
      refine ⟨?_, List.sorted_cons.mpr ⟨hb, hrest⟩⟩
      intro x hx
      rcases List.mem_cons.mp hx with rfl | hx
      · exact h
      · exact strLe_trans h (hb x hx)
    · rw [insertSorted, if_neg h, SortedLe, List.sorted_cons]
      refine ⟨?_, ih hrest⟩
      intro x hx
      rcases mem_insertSorted.mp hx with rfl | hx
      · exact (strLe_total _ b).resolve_left h
      · exact hb x hx

theorem sorted_sortStrings : ∀ (l : List String), SortedLe (sortStrings l) := by
  intro l
  induction l with
  | nil => simp [sortStrings, SortedLe]
  | cons a rest ih => exact sorted_insertSorted ih

/-! ### Correctness of `findDependencies` -/

theorem mem_succs_target_isSome {types : Schema} {t u : String}
    (h : u ∈ succs types t) : (types.lookup u).isSome := by
  unfold succs at h
  cases hl : types.lookup t with
  | none => rw [hl] at h; cases h
  | some fields =>
    rw [hl] at h
    exact (List.mem_filter.mp h).2

theorem reach_target_isSome {types : Schema} {a b : String}
    (h : Reach types a b) : (types.lookup b).isSome := by
  induction h with
  | single h2 => exact mem_succs_target_isSome h2
  | head _ _ ih => exact ih

theorem findDepsFields_ext (types : Schema)
    (step : String → List String → List String)
    (hstep : ∀ b d, ∃ l, step b d = l ++ d) :
    ∀ fields deps, ∃ l, findDepsFields types step fields deps = l ++ deps := by
  intro fields
  induction fields with
  | nil => intro deps; exact ⟨[], rfl⟩
  | cons f rest ih =>
    intro deps
    simp only [findDepsFields]
    by_cases hc : (types.lookup (trimBrackets f.type)).isSome
    · rw [if_pos hc]
      obtain ⟨l1, hl1⟩ := hstep (trimBrackets f.type) deps
      obtain ⟨l2, hl2⟩ := ih (step (trimBrackets f.type) deps)
      exact ⟨l2 ++ l1, by rw [hl2, hl1, List.append_assoc]⟩
    · rw [if_neg hc]; exact ih deps

theorem findDependencies_ext (types : Schema) :
    ∀ fuel t deps, ∃ l, findDependencies types fuel t deps = l ++ deps := by
  intro fuel
  induction fuel with
  | zero => intro t deps; exact ⟨[], rfl⟩
  | succ n ih =>
    intro t deps
    simp only [findDependencies]
    by_cases hd : t ∈ deps
    · rw [if_pos hd]; exact ⟨[], rfl⟩
    rw [if_neg hd]
    cases hl : types.lookup t with
    | none => exact ⟨[], rfl⟩
    | some fields =>
      obtain ⟨l, hl2⟩ :=
        findDepsFields_ext types (fun b d => findDependencies types n b d)
          (fun b d => ih b d) fields (t :: deps)
      refine ⟨l ++ [t], ?_⟩
      show findDepsFields types (fun b d => findDependencies types n b d)
        fields (t :: deps) = l ++ [t] ++ deps
      rw [hl2]; simp

theorem findDependencies_mono (types : Schema) (fuel : Nat) (t : String)
    (deps : List String) : ∀ x ∈ deps, x ∈ findDependencies types fuel t deps := by
  obtain ⟨l, hl⟩ := findDependencies_ext types fuel t deps
  intro x hx
  rw [hl]
  exact List.mem_append_right _ hx

theorem findDepsFields_mono (types : Schema) (fuel : Nat) :
    ∀ fields deps, ∀ x ∈ deps,
      x ∈ findDepsFields types (fun b d => findDependencies types fuel b d) fields deps := by
  intro fields deps x hx
  obtain ⟨l, hl⟩ := findDepsFields_ext types
    (fun b d => findDependencies types fuel b d)
    (fun b d => findDependencies_ext types fuel b d) fields deps
  rw [hl]
  exact List.mem_append_right _ hx

theorem findDependencies_length (types : Schema) (fuel : Nat) (t : String)
    (deps : List String) :
    deps.length ≤ (findDependencies types fuel t deps).length := by
  obtain ⟨l, hl⟩ := findDependencies_ext types fuel t deps
  rw [hl, List.length_append]
  omega

/-- Everything `findDependencies` adds is the start type or reachable from
it. -/
def DepsSound (types : Schema) (fuel : Nat) : Prop :=
  ∀ t deps x, x ∈ findDependencies types fuel t deps →
    x ∈ deps ∨ x = t ∨ Reach types t x

theorem depsFieldsSound (types : Schema) (fuel : Nat) (hs : DepsSound types fuel) :
    ∀ (t : String) (fields : List GoField) deps x,
      (∀ f ∈ fields, (types.lookup (trimBrackets f.type)).isSome →
        trimBrackets f.type ∈ succs types t) →
      x ∈ findDepsFields types (fun b d => findDependencies types fuel b d) fields deps →
      x ∈ deps ∨ Reach types t x := by
  intro t fields
  induction fields with
  | nil => intro deps x _ hx; exact Or.inl hx
  | cons f rest ih =>
    intro deps x hbases hx
    simp only [findDepsFields] at hx
    by_cases hc : (types.lookup (trimBrackets f.type)).isSome
    · rw [if_pos hc] at hx
      have hedge : trimBrackets f.type ∈ succs types t :=
        hbases f (List.mem_cons_self _ _) hc
      rcases ih _ x (fun g hg => hbases g (List.mem_cons_of_mem _ hg)) hx with hx2 | hr
      · rcases hs _ _ _ hx2 with h1 | h2 | h3
        · exact Or.inl h1
        · exact Or.inr (h2 ▸ Reach.single hedge)
        · exact Or.inr (Reach.head hedge h3)
      · exact Or.inr hr
    · rw [if_neg hc] at hx
      exact ih deps x (fun g hg => hbases g (List.mem_cons_of_mem _ hg)) hx

theorem depsSound (types : Schema) : ∀ fuel, DepsSound types fuel := by
  intro fuel
  induction fuel with
  | zero => intro t deps x hx; exact Or.inl hx
  | succ n ih =>
    intro t deps x hx
    simp only [findDependencies] at hx
    by_cases hd : t ∈ deps
    · rw [if_pos hd] at hx; exact Or.inl hx
    rw [if_neg hd] at hx
    cases hl : types.lookup t with
    | none => rw [hl] at hx; exact Or.inl hx
    | some fields =>
      rw [hl] at hx
      have hbases : ∀ f ∈ fields, (types.lookup (trimBrackets f.type)).isSome →
          trimBrackets f.type ∈ succs types t := by
        intro f hf hfc
        exact (mem_succs_iff hl).mpr ⟨f, hf, rfl, hfc⟩
      rcases depsFieldsSound types n ih t fields (t :: deps) x hbases hx with hx2 | hr
      · rcases List.mem_cons.mp hx2 with rfl | hx3
        · exact Or.inr (Or.inl rfl)
        · exact Or.inl hx3
      · exact Or.inr (Or.inr hr)

theorem findDepsFields_nodup (types : Schema)
    (step : String → List String → List String)
    (hstep : ∀ b d, d.Nodup → (step b d).Nodup) :
    ∀ fields deps, deps.Nodup → (findDepsFields types step fields deps).Nodup := by
  intro fields
  induction fields with
  | nil => intro deps h; exact h
  | cons f rest ih =>
    intro deps h
    simp only [findDepsFields]
    by_cases hc : (types.lookup (trimBrackets f.type)).isSome
    · rw [if_pos hc]; exact ih _ (hstep _ _ h)
    · rw [if_neg hc]; exact ih _ h

theorem findDependencies_nodup (types : Schema) :
    ∀ fuel t deps, deps.Nodup → (findDependencies types fuel t deps).Nodup := by
  intro fuel
  induction fuel with
  | zero => intro t deps h; exact h
  | succ n ih =>
    intro t deps h
    simp only [findDependencies]
    by_cases hd : t ∈ deps
    · rw [if_pos hd]; exact h
    rw [if_neg hd]
    cases hl : types.lookup t with
    | none => exact h
    | some fields =>
      exact findDepsFields_nodup types _ (fun b d => ih b d) fields (t :: deps)
        (List.nodup_cons.mpr ⟨hd, h⟩)

theorem findDependencies_keys (types : Schema) (fuel : Nat) (t : String)
    (deps : List String) (hdeps : ∀ x ∈ deps, x ∈ typeKeys types) :
    ∀ x ∈ findDependencies types fuel t deps, x ∈ typeKeys types ∨ x = t := by
  intro x hx
  rcases depsSound types fuel t deps x hx with h1 | h2 | h3
  · exact Or.inl (hdeps x h1)
  · exact Or.inr h2
  · exact Or.inl (lookup_isSome_iff_mem_typeKeys.mp (reach_target_isSome h3))

theorem findDependencies_self_mem (types : Schema) (fuel : Nat) (t : String)
    (deps : List String) (hfuel : 1 ≤ fuel) (hnd : t ∉ deps)
    (hsome : (types.lookup t).isSome) :
    t ∈ findDependencies types fuel t deps := by
  cases fuel with
  | zero => omega
  | succ n =>
    simp only [findDependencies]
    rw [if_neg hnd]
    obtain ⟨fields, hl⟩ := Option.isSome_iff_exists.mp hsome
    rw [hl]
    obtain ⟨l, hext⟩ := findDepsFields_ext types
      (fun b d => findDependencies types n b d)
      (fun b d => findDependencies_ext types n b d) fields (t :: deps)
    show t ∈ findDepsFields types (fun b d => findDependencies types n b d)
      fields (t :: deps)
    rw [hext]
    exact List.mem_append_right _ (List.mem_cons_self _ _)

/-- Closure property of `findDependencies`: with sufficient fuel, each type
it adds has all its graph successors in the result as well. -/
def DepsClosed (types : Schema) (fuel : Nat) : Prop :=
  ∀ t deps, deps.Nodup → (∀ x ∈ deps, x ∈ typeKeys types) →
    (typeKeys types).dedup.length + 1 ≤ fuel + deps.length →
    ∀ v, v ∈ findDependencies types fuel t deps → v ∉ deps →
      ∀ u ∈ succs types v, u ∈ findDependencies types fuel t deps

def DepsFieldsClosed (types : Schema) (fuel : Nat) : Prop :=
  ∀ (fields : List GoField) deps, deps.Nodup →
    (∀ x ∈ deps, x ∈ typeKeys types) →
    (typeKeys types).dedup.length + 1 ≤ fuel + deps.length →
    (∀ f ∈ fields, (types.lookup (trimBrackets f.type)).isSome →
      trimBrackets f.type ∈
        findDepsFields types (fun b d => findDependencies types fuel b d) fields deps) ∧
    ∀ v, v ∈ findDepsFields types (fun b d => findDependencies types fuel b d) fields deps →
      v ∉ deps → ∀ u ∈ succs types v,
        u ∈ findDepsFields types (fun b d => findDependencies types fuel b d) fields deps

theorem depsFieldsClosed (types : Schema) (fuel : Nat)
    (hc : DepsClosed types fuel) : DepsFieldsClosed types fuel := by
  intro fields
  induction fields with
  | nil =>
    intro deps hnd hkeys harith
    constructor
    · intro f hf; cases hf
    · intro v hv hnv u hu
      exact absurd hv hnv
  | cons f rest ih =>
    intro deps hnd hkeys harith
    have hlen := nodup_subset_length_le hnd hkeys
    simp only [findDepsFields]
    by_cases hcust : (types.lookup (trimBrackets f.type)).isSome
    · rw [if_pos hcust]
      have hfuel1 : 1 ≤ fuel := by omega
      have hbS2 : trimBrackets f.type ∈
          findDependencies types fuel (trimBrackets f.type) deps := by
        by_cases hbd : trimBrackets f.type ∈ deps
        · exact findDependencies_mono types fuel _ deps _ hbd
        · exact findDependencies_self_mem types fuel _ deps hfuel1 hbd hcust
      have hS2nd := findDependencies_nodup types fuel (trimBrackets f.type) deps hnd
      have hS2keys : ∀ x ∈ findDependencies types fuel (trimBrackets f.type) deps,
          x ∈ typeKeys types := by
        intro x hx
        rcases findDependencies_keys types fuel _ deps hkeys x hx with h1 | h2
        · exact h1
        · exact h2 ▸ lookup_isSome_iff_mem_typeKeys.mp hcust
      have hS2len := findDependencies_length types fuel (trimBrackets f.type) deps
      have harith2 : (typeKeys types).dedup.length + 1 ≤
          fuel + (findDependencies types fuel (trimBrackets f.type) deps).length := by
        omega
      obtain ⟨ihi, ihc⟩ := ih _ hS2nd hS2keys harith2
      constructor
      · intro g hg hgc
        rcases List.mem_cons.mp hg with rfl | hg
        · exact findDepsFields_mono types fuel rest _ _ hbS2
        · exact ihi g hg hgc
      · intro v hv hnv u hu
        by_cases hvS2 : v ∈ findDependencies types fuel (trimBrackets f.type) deps
        · have hu2 := hc (trimBrackets f.type) deps hnd hkeys (by omega) v hvS2 hnv u hu
          exact findDepsFields_mono types fuel rest _ _ hu2
        · exact ihc v hv hvS2 u hu
    · rw [if_neg hcust]
      obtain ⟨ihi, ihc⟩ := ih deps hnd hkeys harith
      constructor
      · intro g hg hgc
        rcases List.mem_cons.mp hg with rfl | hg
        · exact absurd hgc hcust
        · exact ihi g hg hgc
      · exact ihc

theorem depsClosed (types : Schema) : ∀ fuel, DepsClosed types fuel := by
  intro fuel
  induction fuel with
  | zero =>
    intro t deps hnd hkeys harith
    have hlen := nodup_subset_length_le hnd hkeys
    exact absurd harith (by omega)
  | succ n ih =>
    intro t deps hnd hkeys harith v hv hnv u hu
    simp only [findDependencies] at hv ⊢
    by_cases hd : t ∈ deps
    · rw [if_pos hd] at hv
      exact absurd hv hnv
    rw [if_neg hd] at hv ⊢
    cases hl : types.lookup t with
    | none =>
      rw [hl] at hv
      exact absurd hv hnv
    | some fields =>
      rw [hl] at hv
      have hd1 : (t :: deps).Nodup := List.nodup_cons.mpr ⟨hd, hnd⟩
      have hk1 : ∀ x ∈ t :: deps, x ∈ typeKeys types := by
        intro x hx
        rcases List.mem_cons.mp hx with rfl | hx
        · exact lookup_isSome_iff_mem_typeKeys.mp (by simp [hl])
        · exact hkeys x hx
      have ha1 : (typeKeys types).dedup.length + 1 ≤ n + (t :: deps).length := by
        simp only [List.length_cons]
        omega
      obtain ⟨hbases, hclosed2⟩ := depsFieldsClosed types n ih fields (t :: deps) hd1 hk1 ha1
      by_cases hvt : v = t
      · subst hvt
        obtain ⟨g, hgmem, hgtrim, hgsome⟩ := (mem_succs_iff hl).mp hu
        have := hbases g hgmem (hgtrim ▸ hgsome)
        rw [hgtrim] at this
        exact this
      · refine hclosed2 v hv ?_ u hu
        intro hx
        rcases List.mem_cons.mp hx with rfl | hx
        · exact hvt rfl
        · exact hnv hx

theorem reach_mem_closed {types : Schema} {R : List String}
    (hclosed : ∀ v ∈ R, ∀ u ∈ succs types v, u ∈ R) :
    ∀ {a b : String}, Reach types a b → a ∈ R → b ∈ R := by
  intro a b hr
  induction hr with
  | single h => intro ha; exact hclosed _ ha _ h
  | head h _ ih => intro ha; exact ih (hclosed _ ha _ h)

/-- The dependency list computed by `dependencies` is exactly the start
type together with everything reachable from it. -/
theorem mem_dependencies_iff {types : Schema} {t u : String}
    (h : (types.lookup t).isSome) :
    u ∈ dependencies types t ↔ u = t ∨ Reach types t u := by
  rw [dependencies, mem_sortStrings]
  have harith : (typeKeys types).dedup.length + 1 ≤
      depsFuel types + ([] : List String).length := by
    have h1 : (typeKeys types).dedup.length ≤ (typeKeys types).length :=
      (List.dedup_sublist _).length_le
    have h2 : (typeKeys types).length = types.length := List.length_map _ _
    simp only [depsFuel, List.length_nil]
    omega
  constructor
  · intro hx
    rcases depsSound types _ _ _ _ hx with h1 | h2 | h3
    · cases h1
    · exact Or.inl h2
    · exact Or.inr h3
  · intro hx
    have hself : t ∈ findDependencies types (depsFuel types) t [] :=
      findDependencies_self_mem types _ t [] (by simp [depsFuel]) (by simp) h
    rcases hx with rfl | hr
    · exact hself
    · have hcl := depsClosed types (depsFuel types) t [] (by simp) (by simp) harith
      exact reach_mem_closed (fun v hv u2 hu2 => hcl v hv (by simp) u2 hu2) hr hself

theorem dependencies_sortedLe (types : Schema) (t : String) :
    SortedLe (dependencies types t) :=
  sorted_sortStrings _

/-! ## Values, domain, and external collaborators -/

/-- A dynamically typed Go value (`interface{}`) as it occurs in messages:
strings, booleans, `*big.Int` (or native integers), byte slices,
`common.Address`, slices, and nested `map[string]interface{}`. -/
inductive MsgValue where
  | vString (s : String)
  | vBool (b : Bool)
  | vInt (n : Int)
  | vBytes (bs : List Nat)
  | vAddr (a : List Nat)
  | vList (xs : List MsgValue)
  | vMap (m : List (String × MsgValue))

/-- `Message` = `map[string]interface{}`. -/
abbrev GoMessage := List (String × MsgValue)

/-- The all-zero `common.Address` sentinel. -/
def zeroAddress : List Nat := List.replicate 20 0

/-- The all-zero `[32]byte` salt sentinel. -/
def zeroSalt : List Nat := List.replicate 32 0

/-- The `Domain` struct (eip712.go): `ChainID *big.Int` is an optional
integer (`nil` pointer = absent). -/
structure Domain where
  name : String
  version : String
  chainID : Option Int
  verifyingContract : List Nat
  salt : List Nat
deriving DecidableEq

/-- go-ethereum's `apitypes.TypedDataDomain` as filled by
`domainToAPITypes`. -/
structure APIDomain where
  name : String
  version : String
  chainId : Option Int
  verifyingContract : Option String
  salt : Option String

/-- go-ethereum's `apitypes.TypedData` as assembled by `SignTypedData` and
`Recover`. -/
structure TypedData where
  types : Schema
  primaryType : String
  domain : APIDomain
  message : GoMessage

/-- The `Signature` struct.  `R`, `S`, `Hash` and `Bytes` are hex strings
in Go; the hex codec (`hexutil`, external, bijective) is elided and the
raw bytes stored. -/
structure Signature where
  r : List Nat
  s : List Nat
  v : Nat
  hash : List Nat
  bytes : List Nat

/-- External collaborators, out of scope of the library (specified by the
interfaces they expose): Keccak-256, EIP-55 address rendering
(`common.Address.Hex`, itself Keccak-based), `fmt` formatting of
non-Stringer values, go-ethereum's `apitypes.TypedDataAndHash`,
`crypto.Sign`, `crypto.SigToPub` and `crypto.PubkeyToAddress`.  Public
keys are abstract (`Nat`); private keys are abstract (`Nat`). -/
structure Ext where
  keccak : List Nat → List Nat
  addrHex : List Nat → String
  goFormat : MsgValue → String
  tdHash : TypedData → Except String (List Nat)
  ecSign : List Nat → Nat → Except String (List Nat)
  sigToPub : List Nat → List Nat → Except String Nat
  pubToAddr : Nat → List Nat

/-- The signer struct (private key, derived address, chain id). -/
structure Signer where
  privateKey : Nat
  address : List Nat
  chainID : Int

/-- The `FastSigner` struct (fast_signer.go) has the same fields. -/
structure FastSigner where
  privateKey : Nat
  address : List Nat
  chainID : Int

/-! ## String and number helpers -/

/-- UTF-8 bytes of a string (`[]byte(s)` in Go). -/
def strBytes (s : String) : List Nat :=
  (s.data.map String.utf8EncodeChar).flatten.map (fun b => b.toNat)

def isHexDigitC (c : Char) : Bool :=
  (48 ≤ c.toNat && c.toNat ≤ 57) || (97 ≤ c.toNat && c.toNat ≤ 102) ||
    (65 ≤ c.toNat && c.toNat ≤ 70)

/-- Value of a hex digit (0 for non-digits; guarded by `isHexDigitC`). -/
def hexVal (c : Char) : Nat :=
  if 48 ≤ c.toNat && c.toNat ≤ 57 then c.toNat - 48
  else if 97 ≤ c.toNat && c.toNat ≤ 102 then c.toNat - 87
  else if 65 ≤ c.toNat && c.toNat ≤ 70 then c.toNat - 55
  else 0

/-- `hex.DecodeString`: even-length hex to bytes, `none` on bad input. -/
def hexDecode : List Char → Option (List Nat)
  | [] => some []
  | a :: b :: rest =>
    if isHexDigitC a && isHexDigitC b then
      (hexDecode rest).map (fun bs => (hexVal a * 16 + hexVal b) :: bs)
    else none
  | _ :: [] => none

def hexDigitChar (n : Nat) : Char :=
  if n < 10 then Char.ofNat (48 + n) else Char.ofNat (87 + n)

/-- `hexutil.Encode`: `0x` followed by lowercase hex. -/
def hexEncode0x (bs : List Nat) : String :=
  String.mk ('0' :: 'x' ::
    (bs.map (fun b => [hexDigitChar (b / 16), hexDigitChar (b % 16)])).flatten)

/-- Strip a leading `0x` / `0X` (go-ethereum `has0xPrefix`). -/
def stripHexPrefix : List Char → List Char
  | '0' :: 'x' :: rest => rest
  | '0' :: 'X' :: rest => rest
  | cs => cs

/-- `common.IsHexAddress`: optionally `0x`-prefixed, 40 hex digits. -/
def isHexAddress (s : String) : Bool :=
  let cs := stripHexPrefix s.data
  cs.length = 40 && cs.all isHexDigitC

def hexPairsToBytes : List Char → List Nat
  | a :: b :: rest => (hexVal a * 16 + hexVal b) :: hexPairsToBytes rest
  | _ => []

/-- `common.HexToAddress` on an input that passed `isHexAddress`. -/
def hexToAddress (s : String) : List Nat := hexPairsToBytes (stripHexPrefix s.data)

/-- Digits of a string in the given base, as accepted by
`big.Int.SetString` (nonempty, every digit valid). -/
def digitsVal (base : Nat) (cs : List Char) : Option Nat :=
  match cs with
  | [] => none
  | _ =>
    cs.foldl (fun acc c =>
      match acc with
      | none => none
      | some n =>
        if isHexDigitC c && hexVal c < base then some (n * base + hexVal c)
        else none) (some 0)

/-- `big.Int.SetString` in the given base: optional sign, then digits. -/
def parseSignedInt (base : Nat) (cs : List Char) : Option Int :=
  match cs with
  | '+' :: rest => (digitsVal base rest).map Int.ofNat
  | '-' :: rest => (digitsVal base rest).map (fun n => -(n : Int))
  | _ => (digitsVal base cs).map Int.ofNat

/-- Big-endian bytes of `n`, `k` bytes wide. -/
def natToBytesBE (k n : Nat) : List Nat :=
  (List.range k).map (fun i => n / 256 ^ (k - 1 - i) % 256)

/-- `math.U256Bytes`: the value reduced mod 2^256 (two's complement for
negatives), 32 bytes big-endian. -/
def u256Bytes (n : Int) : List Nat :=
  natToBytesBE 32 (n % (2 : Int) ^ 256).toNat

/-! ## Leaf conversion helpers (fast_encoder.go) -/

/-- Embeds `toAddress`. -/
def toAddress : MsgValue → Except String (List Nat)
  | .vAddr a => .ok a
  | .vString s =>
    if isHexAddress s then .ok (hexToAddress s)
    else .error ("invalid address: " ++ s)
  | _ => .error "invalid address type"

/-- Embeds `toBool`. -/
def toBool : MsgValue → Bool
  | .vBool b => b
  | .vString s => s = "true" || s = "1"
  | _ => false

/-- Embeds `toString` (fast_encoder.go): strings pass through; `*big.Int`
and `common.Address` are `fmt.Stringer`s; everything else goes through
`fmt.Sprintf`, modelled by the external `goFormat`. -/
def toGoString (E : Ext) : MsgValue → String
  | .vString s => s
  | .vInt n => toString n
  | .vAddr a => E.addrHex a
  | v => E.goFormat v

/-- Embeds `toBytes`. -/
def toBytes : MsgValue → Except String (List Nat)
  | .vBytes bs => .ok bs
  | .vString s =>
    match s.data with
    | '0' :: 'x' :: rest =>
      match hexDecode rest with
      | some bs => .ok bs
      | none => .error "invalid hex in bytes value"
    | _ => .ok (strBytes s)
  | _ => .error "invalid bytes type"

/-- Embeds `toBigInt`. -/
def toBigInt : MsgValue → Except String Int
  | .vInt n => .ok n
  | .vString s =>
    match s.data with
    | '0' :: 'x' :: rest =>
      match parseSignedInt 16 rest with
      | some n => .ok n
      | none => .error ("invalid hex number: " ++ s)
    | _ =>
      match parseSignedInt 10 s.data with
      | some n => .ok n
      | none => .error ("invalid decimal number: " ++ s)
  | _ => .error "invalid integer type"

/-! ## The value encoder (fast_encoder.go) -/

/-- Size parse of `bytesN` (`regexp ^bytes(\d+)$`). -/
def parseBytesSize (ft : String) : Option Nat :=
  match ft.data with
  | 'b' :: 'y' :: 't' :: 'e' :: 's' :: rest =>
    match rest with
    | [] => none
    | _ =>
      if rest.all (fun c => 48 ≤ c.toNat && c.toNat ≤ 57) then
        some (rest.foldl (fun n c => n * 10 + (c.toNat - 48)) 0)
      else none
  | _ => none

/-- Embeds `encodeFixedBytes`: parse the width (default 32 for
`bytes32`), reject inputs longer than the width, right-pad to 32 bytes. -/
def encodeFixedBytes (ft : String) (v : MsgValue) : Except String (List Nat) :=
  let sizeRes : Except String Nat :=
    if ft = "bytes32" then .ok 32
    else
      match parseBytesSize ft with
      | none => .error ("invalid bytes type: " ++ ft)
      | some size =>
        if 1 ≤ size ∧ size ≤ 32 then .ok size
        else .error "invalid bytes size"
  match sizeRes with
  | .error e => .error e
  | .ok size =>
    match toBytes v with
    | .error e => .error e
    | .ok b =>
      if size < b.length then .error ("bytes too long for " ++ ft)
      else .ok (b ++ List.replicate (32 - b.length) 0)

/-- Embeds `encodeInteger`: the only enforced bound is that a `uint`-
prefixed type rejects negative values; the result is the value reduced
mod 2^256 (`math.U256Bytes`). -/
def encodeInteger (ft : String) (v : MsgValue) : Except String (List Nat) :=
  match toBigInt v with
  | .error e => .error e
  | .ok n =>
    if strStarts "uint" ft && decide (n < 0) then
      .error ("negative value for unsigned type " ++ ft)
    else .ok (u256Bytes n)

/-- Embeds `encodePrimitive`: dispatch on the field type. -/
def encodePrimitive (E : Ext) (ft : String) (v : MsgValue) :
    Except String (List Nat) :=
  if ft = "address" then
    match toAddress v with
    | .error e => .error e
    | .ok addr => .ok (List.replicate 12 0 ++ addr)
  else if ft = "bool" then
    .ok (List.replicate 31 0 ++ [if toBool v then 1 else 0])
  else if ft = "string" then
    .ok (E.keccak (strBytes (toGoString E v)))
  else if ft = "bytes" then
    match toBytes v with
    | .error e => .error e
    | .ok b => .ok (E.keccak b)
  else if strStarts "bytes" ft then encodeFixedBytes ft v
  else if strStarts "uint" ft || strStarts "int" ft then encodeInteger ft v
  else .error ("unsupported type: " ++ ft)

/-- Embeds `typeHash` (fast_encoder.go): Keccak-256 of the canonical type
encoding.  The global cache only memoizes this; the model is the computing
path. -/
def typeHash (E : Ext) (types : Schema) (t : String) : Except String (List Nat) :=
  match encodeType types t with
  | .error e => .error e
  | .ok enc => .ok (E.keccak (strBytes enc))

/-- `strings.HasSuffix(ft, "[]")`. -/
def hasBrSuffix (s : String) : Bool :=
  match s.data.reverse with
  | ']' :: '[' :: _ => true
  | _ => false

/-- The element loop of `encodeArray`: `encV` is the recursive
`encodeValue`; string elements are hashed directly (special case in the
source), everything else goes through `encV` at the element type. -/
def encodeElems (E : Ext) (elementType : String)
    (encV : String → MsgValue → Except String (List Nat)) :
    Nat → List MsgValue → Except String (List Nat)
  | _, [] => .ok []
  | i, .vString s :: rest =>
    if elementType = "string" then
      match encodeElems E elementType encV (i + 1) rest with
      | .error e => .error e
      | .ok tail => .ok (E.keccak (strBytes s) ++ tail)
    else
      match encV elementType (.vString s) with
      | .error e => .error ("failed to encode array element " ++ toString i ++ ": " ++ e)
      | .ok enc =>
        match encodeElems E elementType encV (i + 1) rest with
        | .error e => .error e
        | .ok tail => .ok (enc ++ tail)
  | i, x :: rest =>
    match encV elementType x with
    | .error e => .error ("failed to encode array element " ++ toString i ++ ": " ++ e)
    | .ok enc =>
      match encodeElems E elementType encV (i + 1) rest with
      | .error e => .error e
      | .ok tail => .ok (enc ++ tail)

/-- Embeds `encodeArray`: require a slice, encode the elements in order,
hash the concatenation. -/
def encodeArray (E : Ext)
    (encV : String → MsgValue → Except String (List Nat))
    (fieldType : String) (v : MsgValue) : Except String (List Nat) :=
  match v with
  | .vList xs =>
    match encodeElems E (trimBrackets fieldType) encV 0 xs with
    | .error e => .error e
    | .ok buf => .ok (E.keccak buf)
  | _ => .error ("expected slice for array type " ++ fieldType)

/-- The field loop of `encodeData`: look up each declared field in the
message, in declared order. -/
def encodeFields (encV : String → MsgValue → Except String (List Nat)) :
    List GoField → GoMessage → Except String (List Nat)
  | [], _ => .ok []
  | f :: rest, data =>
    match data.lookup f.name with
    | none => .error ("field " ++ f.name ++ " not found in data")
    | some v =>
      match encV f.type v with
      | .error e => .error ("failed to encode field " ++ f.name ++ ": " ++ e)
      | .ok enc =>
        match encodeFields encV rest data with
        | .error e => .error e
        | .ok tail => .ok (enc ++ tail)

/-- Embeds `encodeData`: the type hash, then the declared fields'
encodings concatenated in declared order. -/
def encodeData (E : Ext) (types : Schema)
    (encV : String → MsgValue → Except String (List Nat))
    (t : String) (data : GoMessage) : Except String (List Nat) :=
  match typeHash E types t with
  | .error e => .error e
  | .ok th =>
    match types.lookup t with
    | none => .error ("type " ++ t ++ " not found")
    | some fields =>
      match encodeFields encV fields data with
      | .error e => .error e
      | .ok body => .ok (th ++ body)

/-- `hashStruct` with an explicit recursive step. -/
def hashStructWith (E : Ext) (types : Schema)
    (encV : String → MsgValue → Except String (List Nat))
    (t : String) (data : GoMessage) : Except String (List Nat) :=
  match encodeData E types encV t data with
  | .error e => .error e
  | .ok enc => .ok (E.keccak enc)

/-- Embeds `encodeStruct`: require a mapping, hash it as a struct. -/
def encodeStruct (E : Ext) (types : Schema)
    (encV : String → MsgValue → Except String (List Nat))
    (ft : String) (v : MsgValue) : Except String (List Nat) :=
  match v with
  | .vMap m => hashStructWith E types encV ft m
  | _ => .error "invalid struct value type"

/-- Embeds `encodeValue`: arrays first, then struct references, then
primitives.  The fuel only bounds the recursion depth of the model; Go's
recursion is bounded by the (finite) value tree. -/
def encodeValue (E : Ext) (types : Schema) :
    Nat → String → MsgValue → Except String (List Nat)
  | 0, _, _ => .error "out of fuel"
  | fuel + 1, ft, v =>
    if hasBrSuffix ft then
      encodeArray E (fun ft2 v2 => encodeValue E types fuel ft2 v2) ft v
    else if (types.lookup ft).isSome then
      encodeStruct E types (fun ft2 v2 => encodeValue E types fuel ft2 v2) ft v
    else encodePrimitive E ft v

/-- Embeds `hashStruct` (fast_encoder.go): Keccak-256 of `encodeData`. -/
def hashStruct (E : Ext) (types : Schema) (fuel : Nat) (t : String)
    (data : GoMessage) : Except String (List Nat) :=
  match encodeData E types (fun ft v => encodeValue E types fuel ft v) t data with
  | .error e => .error e
  | .ok enc => .ok (E.keccak enc)

/-! ## The fast encoder object and its `Hash` (fast_encoder.go) -/

/-- The `FastTypedDataEncoder` struct.  `Types` aliases the caller's map
(Go maps are reference values). -/
structure FastTypedDataEncoder where
  Types : Schema
  PrimaryType : String
  Domain : Domain
  Message : GoMessage

/-- Embeds the fast encoder's `buildDomainTypes`. -/
def FastTypedDataEncoder.buildDomainTypes (e : FastTypedDataEncoder) : List GoField :=
  [⟨"name", "string"⟩, ⟨"version", "string"⟩]
  ++ (if e.Domain.chainID.isSome then [⟨"chainId", "uint256"⟩] else [])
  ++ (if e.Domain.verifyingContract ≠ zeroAddress then
        [⟨"verifyingContract", "address"⟩] else [])
  ++ (if e.Domain.salt ≠ zeroSalt then [⟨"salt", "bytes32"⟩] else [])

/-- Embeds `domainToMap`: only present fields appear. -/
def FastTypedDataEncoder.domainToMap (e : FastTypedDataEncoder) (E : Ext) : GoMessage :=
  [("name", .vString e.Domain.name), ("version", .vString e.Domain.version)]
  ++ (match e.Domain.chainID with
      | some n => [("chainId", .vString (toString n))]
      | none => [])
  ++ (if e.Domain.verifyingContract ≠ zeroAddress then
        [("verifyingContract", .vString (E.addrHex e.Domain.verifyingContract))]
      else [])
  ++ (if e.Domain.salt ≠ zeroSalt then
        [("salt", .vString (hexEncode0x e.Domain.salt))] else [])

/-- Embeds the fast encoder's `Hash`.  The second component is the
caller's types map after the call: the assignment
`e.Types["EIP712Domain"] = e.buildDomainTypes()` writes through the alias
into the caller's map, and happens after validation but before any
hashing. -/
def FastTypedDataEncoder.Hash (E : Ext) (fuel : Nat) (e : FastTypedDataEncoder) :
    (Except String (List Nat)) × Schema :=
  match validateNoCycles e.Types with
  | some err => (.error err, e.Types)
  | none =>
    let types :=
      if (e.Types.lookup "EIP712Domain").isSome then e.Types
      else e.Types ++ [("EIP712Domain", e.buildDomainTypes)]
    match hashStruct E types fuel "EIP712Domain" (e.domainToMap E) with
    | .error e2 => (.error ("failed to hash domain: " ++ e2), types)
    | .ok domainSeparator =>
      match hashStruct E types fuel e.PrimaryType e.Message with
      | .error e2 => (.error ("failed to hash message: " ++ e2), types)
      | .ok messageHash =>
        (.ok (E.keccak ([0x19, 0x01] ++ domainSeparator ++ messageHash)), types)

/-- A concrete stand-in for the external collaborators, used in concrete
evaluations. -/
def dummyExt : Ext where
  keccak := fun _ => List.replicate 32 0
  addrHex := fun a => hexEncode0x a
  goFormat := fun _ => ""
  tdHash := fun _ => .ok (List.replicate 32 0)
  ecSign := fun _ _ => .ok (List.replicate 64 9 ++ [0])
  sigToPub := fun _ sg => if sg.getLast?.getD 0 ≤ 1 then .ok 0 else .error "invalid recovery id"
  pubToAddr := fun _ => List.replicate 20 7

example :
    (FastTypedDataEncoder.Hash dummyExt 10
      ⟨[("Empty", [])], "Empty", ⟨"", "", none, zeroAddress, zeroSalt⟩, []⟩).1 =
    .ok (List.replicate 32 0) := rfl

/-! ## Domain assembly and the sign/recover facade (eip712.go) -/

/-- Embeds `buildDomainTypesStatic`: `name`/`version` always, `chainId`
when the pointer is non-nil, `verifyingContract`/`salt` when non-zero, in
this fixed order. -/
def buildDomainTypesStatic (domain : Domain) : List GoField :=
  [⟨"name", "string"⟩, ⟨"version", "string"⟩]
  ++ (if domain.chainID.isSome then [⟨"chainId", "uint256"⟩] else [])
  ++ (if domain.verifyingContract ≠ zeroAddress then
        [⟨"verifyingContract", "address"⟩] else [])
  ++ (if domain.salt ≠ zeroSalt then [⟨"salt", "bytes32"⟩] else [])

/-- `Signer.buildDomainTypes` delegates to the static function. -/
def Signer.buildDomainTypes (_s : Signer) (domain : Domain) : List GoField :=
  buildDomainTypesStatic domain

/-- Embeds `domainToAPITypesStatic`. -/
def domainToAPITypesStatic (E : Ext) (domain : Domain) : APIDomain where
  name := domain.name
  version := domain.version
  chainId := domain.chainID
  verifyingContract :=
    if domain.verifyingContract ≠ zeroAddress then
      some (E.addrHex domain.verifyingContract)
    else none
  salt := if domain.salt ≠ zeroSalt then some (hexEncode0x domain.salt) else none

/-- Embeds the method `Signer.domainToAPITypes`, textually identical to
the static function in the source. -/
def Signer.domainToAPITypes (_s : Signer) (E : Ext) (domain : Domain) : APIDomain where
  name := domain.name
  version := domain.version
  chainId := domain.chainID
  verifyingContract :=
    if domain.verifyingContract ≠ zeroAddress then
      some (E.addrHex domain.verifyingContract)
    else none
  salt := if domain.salt ≠ zeroSalt then some (hexEncode0x domain.salt) else none

/-- The `apitypes.TypedData` assembled by `SignTypedData`: the conversion
loop copies every entry of the caller's map unchanged into a fresh map,
and `EIP712Domain` is added to that fresh map when absent. -/
def signTypedDataTD (E : Ext) (s : Signer) (domain : Domain) (types : Schema)
    (primaryType : String) (message : GoMessage) : TypedData where
  types :=
    if (types.lookup "EIP712Domain").isSome then types
    else types ++ [("EIP712Domain", s.buildDomainTypes domain)]
  primaryType := primaryType
  domain := s.domainToAPITypes E domain
  message := message

/-- The `apitypes.TypedData` assembled by `Recover`, via the static
helpers. -/
def recoverTD (E : Ext) (domain : Domain) (types : Schema)
    (primaryType : String) (message : GoMessage) : TypedData where
  types :=
    if (types.lookup "EIP712Domain").isSome then types
    else types ++ [("EIP712Domain", buildDomainTypesStatic domain)]
  primaryType := primaryType
  domain := domainToAPITypesStatic E domain
  message := message

/-- Embeds `SignTypedData` (eip712.go): validate, hash via the external
`apitypes.TypedDataAndHash`, sign via the external `crypto.Sign` (64-byte
`r ‖ s` plus recovery id), shift `v` by +27, package the signature.  The
second component is the caller's types map after the call: the source
writes only to the freshly created `typedData.Types`, never to the
caller's map. -/
def SignTypedData (E : Ext) (s : Signer) (domain : Domain) (types : Schema)
    (primaryType : String) (message : GoMessage) :
    (Except String Signature) × Schema :=
  (match validateNoCycles types with
  | some err => .error err
  | none =>
    match E.tdHash (signTypedDataTD E s domain types primaryType message) with
    | .error e => .error ("failed to hash typed data: " ++ e)
    | .ok hash =>
      match E.ecSign hash s.privateKey with
      | .error e => .error ("failed to sign: " ++ e)
      | .ok sig =>
        .ok { r := (sig.take 64 ++ [sig.getLast?.getD 0 + 27]).take 32,
              s := ((sig.take 64 ++ [sig.getLast?.getD 0 + 27]).drop 32).take 32,
              v := sig.getLast?.getD 0 + 27,
              hash := hash,
              bytes := sig.take 64 ++ [sig.getLast?.getD 0 + 27] }, types)

/-- The recovery-id adjustment in `Recover`: a final byte ≥ 27 is reduced
by 27 before the external recovery primitive is called. -/
def adjustSigBytes (bs : List Nat) : List Nat :=
  if 27 ≤ bs.getLast?.getD 0 then bs.take 64 ++ [bs.getLast?.getD 0 - 27] else bs

/-- Embeds `Signature.Recover` (eip712.go): rebuild the typed data, hash,
decode the signature (hex decoding is the identity at the byte level),
require 65 bytes, adjust `v`, call the external recovery primitive,
derive the address.  No write touches the caller's maps. -/
def Signature.Recover (E : Ext) (sig : Signature) (domain : Domain)
    (types : Schema) (primaryType : String) (message : GoMessage) :
    (Except String (List Nat)) × Schema :=
  (match E.tdHash (recoverTD E domain types primaryType message) with
  | .error e => .error ("failed to hash typed data: " ++ e)
  | .ok hash =>
    if sig.bytes.length = 65 then
      match E.sigToPub hash (adjustSigBytes sig.bytes) with
      | .error e => .error ("failed to recover public key: " ++ e)
      | .ok pub => .ok (E.pubToAddr pub)
    else .error "signature must be 65 bytes", types)

/-- Embeds `VerifySignature` (eip712.go): recover, compare with the
expected signer. -/
def VerifySignature (E : Ext) (sig : Signature) (expectedSigner : List Nat)
    (domain : Domain) (types : Schema) (primaryType : String)
    (message : GoMessage) : (Except String Bool) × Schema :=
  match (Signature.Recover E sig domain types primaryType message).1 with
  | .error e => (.error e, types)
  | .ok addr => (.ok (decide (addr = expectedSigner)), types)

/-! ## Permit signing (eip712.go / fast_signer.go) -/

/-- The `Permit` schema registered by `SignPermit` / `SignPermitFast`. -/
def permitTypes : Schema :=
  [("Permit",
    [⟨"owner", "address"⟩, ⟨"spender", "address"⟩, ⟨"value", "uint256"⟩,
     ⟨"nonce", "uint256"⟩, ⟨"deadline", "uint256"⟩])]

/-- The domain built by `SignPermit` / `SignPermitFast`. -/
def permitDomain (tokenName tokenVersion : String) (chainID : Int)
    (tokenContract : List Nat) : Domain where
  name := tokenName
  version := tokenVersion
  chainID := some chainID
  verifyingContract := tokenContract
  salt := zeroSalt

/-- The message built by `SignPermit` / `SignPermitFast`: the `owner`
entry is always the hex form of the signer's own address; the interface
takes no owner parameter. -/
def permitMessage (E : Ext) (signerAddress spender : List Nat)
    (value nonce deadline : Int) : GoMessage :=
  [("owner", .vString (E.addrHex signerAddress)),
   ("spender", .vString (E.addrHex spender)),
   ("value", .vString (toString value)),
   ("nonce", .vString (toString nonce)),
   ("deadline", .vString (toString deadline))]

/-- Embeds `SignPermit` (eip712.go). -/
def SignPermit (E : Ext) (s : Signer) (tokenContract : List Nat)
    (tokenName tokenVersion : String) (spender : List Nat)
    (value nonce deadline : Int) : (Except String Signature) × Schema :=
  SignTypedData E s (permitDomain tokenName tokenVersion s.chainID tokenContract)
    permitTypes "Permit" (permitMessage E s.address spender value nonce deadline)

/-! ## The fast signer (fast_signer.go) -/

/-- Embeds `SignTypedDataFast`: hash with the fast encoder (which may
insert `EIP712Domain` into the caller's map — second component), then sign
and package exactly as the slow path does. -/
def SignTypedDataFast (E : Ext) (fuel : Nat) (s : FastSigner) (domain : Domain)
    (types : Schema) (primaryType : String) (message : GoMessage) :
    (Except String Signature) × Schema :=
  match FastTypedDataEncoder.Hash E fuel ⟨types, primaryType, domain, message⟩ with
  | (.error e, types2) => (.error ("failed to hash typed data: " ++ e), types2)
  | (.ok hash, types2) =>
    match E.ecSign hash s.privateKey with
    | .error e => (.error ("failed to sign: " ++ e), types2)
    | .ok sig =>
      (.ok { r := (sig.take 64 ++ [sig.getLast?.getD 0 + 27]).take 32,
             s := ((sig.take 64 ++ [sig.getLast?.getD 0 + 27]).drop 32).take 32,
             v := sig.getLast?.getD 0 + 27,
             hash := hash,
             bytes := sig.take 64 ++ [sig.getLast?.getD 0 + 27] }, types2)

/-- Embeds `RecoverSignatureFast` (fast_signer.go). -/
def RecoverSignatureFast (E : Ext) (fuel : Nat) (sig : Signature)
    (domain : Domain) (types : Schema) (primaryType : String)
    (message : GoMessage) : (Except String (List Nat)) × Schema :=
  match FastTypedDataEncoder.Hash E fuel ⟨types, primaryType, domain, message⟩ with
  | (.error e, types2) => (.error ("failed to hash typed data: " ++ e), types2)
  | (.ok hash, types2) =>
    if sig.bytes.length = 65 then
      match E.sigToPub hash (adjustSigBytes sig.bytes) with
      | .error e => (.error ("failed to recover public key: " ++ e), types2)
      | .ok pub => (.ok (E.pubToAddr pub), types2)
    else (.error "signature must be 65 bytes", types2)

/-- Embeds `VerifySignatureFast` (fast_signer.go). -/
def VerifySignatureFast (E : Ext) (fuel : Nat) (sig : Signature)
    (expectedSigner : List Nat) (domain : Domain) (types : Schema)
    (primaryType : String) (message : GoMessage) :
    (Except String Bool) × Schema :=
  match RecoverSignatureFast E fuel sig domain types primaryType message with
  | (.error e, types2) => (.error e, types2)
  | (.ok addr, types2) => (.ok (decide (addr = expectedSigner)), types2)

/-- Embeds `SignPermitFast` (fast_signer.go). -/
def SignPermitFast (E : Ext) (fuel : Nat) (s : FastSigner)
    (tokenContract : List Nat) (tokenName tokenVersion : String)
    (spender : List Nat) (value nonce deadline : Int) :
    (Except String Signature) × Schema :=
  SignTypedDataFast E fuel s
    (permitDomain tokenName tokenVersion s.chainID tokenContract)
    permitTypes "Permit" (permitMessage E s.address spender value nonce deadline)

/-! ## List and string helper lemmas for the claim theorems -/

theorem getLast?_append_single (l : List Nat) (x : Nat) :
    (l ++ [x]).getLast? = some x :=
  List.getLast?_concat l

theorem take64_append_last {sg : List Nat} (h : sg.length = 65) :
    sg.take 64 ++ [sg.getLast?.getD 0] = sg := by
  have hne : sg ≠ [] := by
    intro he; rw [he] at h; cases h
  have h1 : sg.take 64 = sg.dropLast := by
    rw [List.dropLast_eq_take, h]
  have h2 : sg.getLast? = some (sg.getLast hne) := List.getLast?_eq_getLast sg hne
  rw [h1, h2, Option.getD_some]
  exact List.dropLast_append_getLast hne

theorem strStarts_head {p s : String} {c : Char}
    (h : strStarts p s = true) (hp : p.data.head? = some c) :
    s.data.head? = some c := by
  unfold strStarts at h
  cases hpd : p.data with
  | nil => rw [hpd] at hp; cases hp
  | cons a as =>
    rw [hpd] at hp h
    cases hsd : s.data with
    | nil => rw [hsd] at h; simp [List.isPrefixOf] at h
    | cons b bs =>
      rw [hsd] at h
      simp only [List.isPrefixOf, Bool.and_eq_true, beq_iff_eq] at h
      simp only [List.head?]
      rw [← h.1]
      exact hp

/-! ## C5: the synthesized EIP712Domain descriptor -/

/-- C5 (confirmed).  For every `Domain` value, the synthesized
`EIP712Domain` descriptor contains `name`/`version` always as `string`;
`chainId` as `uint256` exactly when a chain id was supplied (any integer,
including zero → non-nil pointer); `verifyingContract` as `address`
exactly when the address is not all-zero; `salt` as `bytes32` exactly
when the 32-byte salt is not all-zero; in the fixed order name, version,
chainId, verifyingContract, salt — and the fast encoder's
`buildDomainTypes` agrees with the static builder. -/
theorem c5_domain_descriptor (domain : Domain) :
    (⟨"name", "string"⟩ ∈ buildDomainTypesStatic domain ∧
     ⟨"version", "string"⟩ ∈ buildDomainTypesStatic domain) ∧
    ((⟨"chainId", "uint256"⟩ : GoField) ∈ buildDomainTypesStatic domain ↔
      domain.chainID.isSome) ∧
    ((⟨"verifyingContract", "address"⟩ : GoField) ∈ buildDomainTypesStatic domain ↔
      domain.verifyingContract ≠ zeroAddress) ∧
    ((⟨"salt", "bytes32"⟩ : GoField) ∈ buildDomainTypesStatic domain ↔
      domain.salt ≠ zeroSalt) ∧
    ((buildDomainTypesStatic domain).map GoField.name).Sublist
      ["name", "version", "chainId", "verifyingContract", "salt"] ∧
    ∀ e : FastTypedDataEncoder, e.buildDomainTypes = buildDomainTypesStatic e.Domain := by
  obtain ⟨nm, vr, cid, vc, sl⟩ := domain
  refine ⟨?_, ?_, ?_, ?_, ?_, fun e => rfl⟩ <;>
    cases cid <;>
    by_cases hvc : vc ≠ zeroAddress <;>
    by_cases hsl : sl ≠ zeroSalt <;>
    simp_all [buildDomainTypesStatic]

/-! ## C10: permit signing always names the signer as owner -/

/-- C10 (confirmed).  `SignPermit` and `SignPermitFast` build the
`Permit` message themselves, with `owner` set to the hex form of the
signer's own address; the interface has no owner parameter, so every
produced permit signature is over a message naming the signer as owner. -/
theorem c10_permit_owner (E : Ext) (s : Signer) (fs : FastSigner)
    (tokenContract : List Nat) (tokenName tokenVersion : String)
    (spender : List Nat) (value nonce deadline : Int) :
    (permitMessage E s.address spender value nonce deadline).lookup "owner" =
      some (.vString (E.addrHex s.address)) ∧
    SignPermit E s tokenContract tokenName tokenVersion spender value nonce deadline =
      SignTypedData E s (permitDomain tokenName tokenVersion s.chainID tokenContract)
        permitTypes "Permit"
        (permitMessage E s.address spender value nonce deadline) ∧
    ∀ fuel,
      SignPermitFast E fuel fs tokenContract tokenName tokenVersion spender
        value nonce deadline =
      SignTypedDataFast E fuel fs
        (permitDomain tokenName tokenVersion fs.chainID tokenContract)
        permitTypes "Permit"
        (permitMessage E fs.address spender value nonce deadline) :=
  ⟨rfl, rfl, fun _ => rfl⟩

/-! ## C6: integer leaf encoding -/

/-- C6 (corrected, amended claim).  `encodeInteger` rejects exactly
one thing: a negative value for a `uint`-prefixed type.  Everything else
— including `intN` values outside `[-2^(N-1), 2^(N-1)-1]` — is encoded as
the value mod 2^256; and a `uint`-prefixed width that is not a multiple
of 8 in [8, 256] (such as `uint257`) is still routed by `encodePrimitive`
to `encodeInteger` and encoded, not rejected as a schema error. -/
theorem c6_integer_encoding (ft : String) (v : MsgValue) (n : Int)
    (hv : toBigInt v = .ok n) :
    encodeInteger ft v =
      (if strStarts "uint" ft && decide (n < 0) then
        .error ("negative value for unsigned type " ++ ft)
      else .ok (u256Bytes n)) ∧
    ∀ E : Ext, strStarts "uint" ft = true →
      encodePrimitive E ft v = encodeInteger ft v := by
  constructor
  · rw [encodeInteger, hv]
  · intro E hu
    have hhead : ft.data.head? = some 'u' := strStarts_head hu rfl
    have h1 : ft ≠ "address" := by
      intro he; rw [he] at hu; exact absurd hu (by decide)
    have h2 : ft ≠ "bool" := by
      intro he; rw [he] at hu; exact absurd hu (by decide)
    have h3 : ft ≠ "string" := by
      intro he; rw [he] at hu; exact absurd hu (by decide)
    have h4 : ft ≠ "bytes" := by
      intro he; rw [he] at hu; exact absurd hu (by decide)
    have h5 : ¬ strStarts "bytes" ft = true := by
      intro hb
      have := strStarts_head hb (show ("bytes" : String).data.head? = some 'b' from rfl)
      rw [hhead] at this
      cases this
    rw [encodePrimitive, if_neg h1, if_neg h2, if_neg h3, if_neg h4, if_neg h5,
      if_pos (by rw [hu]; rfl)]

/-- Witness for C6 at `uint8` and value −1. -/
theorem c6_integer_encoding_witness :
    toBigInt (.vInt (-1)) = .ok (-1) ∧
    (encodeInteger "uint8" (.vInt (-1)) =
      (if strStarts "uint" "uint8" && decide ((-1 : Int) < 0) then
        .error ("negative value for unsigned type " ++ "uint8")
      else .ok (u256Bytes (-1))) ∧
    ∀ E : Ext, strStarts "uint" "uint8" = true →
      encodePrimitive E "uint8" (.vInt (-1)) = encodeInteger "uint8" (.vInt (-1))) :=
  ⟨rfl, c6_integer_encoding "uint8" (.vInt (-1)) (-1) rfl⟩

/-- Counterexample for C6 as stated: `uint257` (width not a multiple of 8
in [8,256]) is encoded, not rejected, and `int8` with the out-of-range
value 200 is encoded, not rejected. -/
theorem c6_counterexample :
    encodePrimitive dummyExt "uint257" (.vInt 5) = .ok (u256Bytes 5) ∧
    encodeInteger "int8" (.vInt 200) = .ok (u256Bytes 200) ∧
    ¬ (200 : Int) ≤ 2 ^ 7 - 1 :=
  ⟨rfl, rfl, by decide⟩

/-! ## C7: field exactness in `encodeData` -/

theorem encodeFields_missing
    (encV : String → MsgValue → Except String (List Nat)) :
    ∀ (fields : List GoField) (data : GoMessage),
      (∃ f ∈ fields, data.lookup f.name = none) →
      ∃ msg, encodeFields encV fields data = .error msg := by
  intro fields
  induction fields with
  | nil =>
    intro data h
    obtain ⟨f, hf, _⟩ := h
    cases hf
  | cons f rest ih =>
    intro data h
    cases hlk : data.lookup f.name with
    | none =>
      exact ⟨"field " ++ f.name ++ " not found in data",
        by simp only [encodeFields, hlk]⟩
    | some v =>
      cases henc : encV f.type v with
      | error e =>
        exact ⟨"failed to encode field " ++ f.name ++ ": " ++ e,
          by simp only [encodeFields, hlk, henc]⟩
      | ok enc =>
        have hrest : ∃ g ∈ rest, data.lookup g.name = none := by
          obtain ⟨g, hg, hgl⟩ := h
          rcases List.mem_cons.mp hg with rfl | hg2
          · rw [hlk] at hgl; cases hgl
          · exact ⟨g, hg2, hgl⟩
        obtain ⟨msg, hmsg⟩ := ih data hrest
        exact ⟨msg, by simp only [encodeFields, hlk, henc, hmsg]⟩

theorem encodeFields_congr
    (encV : String → MsgValue → Except String (List Nat)) :
    ∀ (fields : List GoField) (data data2 : GoMessage),
      (∀ f ∈ fields, data2.lookup f.name = data.lookup f.name) →
      encodeFields encV fields data2 = encodeFields encV fields data := by
  intro fields
  induction fields with
  | nil => intro data data2 _; rfl
  | cons f rest ih =>
    intro data data2 hagree
    have hrec := ih data data2 (fun g hg => hagree g (List.mem_cons_of_mem _ hg))
    cases hlk : data.lookup f.name with
    | none =>
      simp only [encodeFields, hlk, hagree f (List.mem_cons_self _ _)]
    | some v =>
      cases henc : encV f.type v with
      | error e =>
        simp only [encodeFields, hlk, henc, hagree f (List.mem_cons_self _ _)]
      | ok enc =>
        simp only [encodeFields, hlk, henc, hrec,
          hagree f (List.mem_cons_self _ _)]

/-- C7 (corrected, amended claim).  `encodeData` fails when the
message mapping is missing a declared field, but entries whose names are
not declared in the type are ignored: the result depends only on the
mapping's values at the declared field names, so extra entries change
nothing and cause no error. -/
theorem c7_encode_data_fields (E : Ext) (types : Schema)
    (encV : String → MsgValue → Except String (List Nat))
    (t : String) (fields : List GoField) (data : GoMessage)
    (hl : types.lookup t = some fields) :
    ((∃ f ∈ fields, data.lookup f.name = none) →
      ∃ msg, encodeData E types encV t data = .error msg) ∧
    ∀ data2 : GoMessage,
      (∀ f ∈ fields, data2.lookup f.name = data.lookup f.name) →
      encodeData E types encV t data2 = encodeData E types encV t data := by
  constructor
  · intro hmiss
    obtain ⟨msg, hmsg⟩ := encodeFields_missing encV fields data hmiss
    cases hth : typeHash E types t with
    | error e => exact ⟨e, by simp only [encodeData, hth]⟩
    | ok th => exact ⟨msg, by simp only [encodeData, hth, hl, hmsg]⟩
  · intro data2 hagree
    have hcongr := encodeFields_congr encV fields data data2 hagree
    cases hth : typeHash E types t with
    | error e => simp only [encodeData, hth]
    | ok th => simp only [encodeData, hth, hl, hcongr]

def c7Types : Schema := [("T", [⟨"a", "bool"⟩])]

def c7Data : GoMessage := [("a", .vBool true), ("zz", .vBool false)]

/-- Counterexample for C7 as stated: the mapping contains the entry `zz`,
whose name is not declared in `T`, yet encoding succeeds — the encoder
does not reject extra entries. -/
theorem c7_counterexample :
    c7Data.lookup "zz" = some (.vBool false) ∧
    (∀ f ∈ [(⟨"a", "bool"⟩ : GoField)], f.name ≠ "zz") ∧
    encodeData dummyExt c7Types
      (fun ft v => encodeValue dummyExt c7Types 10 ft v) "T" c7Data =
      .ok (List.replicate 32 0 ++ (List.replicate 31 0 ++ [1])) :=
  ⟨rfl, by decide, rfl⟩

/-- Witness for C7 on a concrete schema and message. -/
theorem c7_encode_data_fields_witness :
    c7Types.lookup "T" = some [⟨"a", "bool"⟩] ∧
    (((∃ f ∈ [(⟨"a", "bool"⟩ : GoField)], ([] : GoMessage).lookup f.name = none) →
      ∃ msg, encodeData dummyExt c7Types
        (fun ft v => encodeValue dummyExt c7Types 10 ft v) "T" [] = .error msg) ∧
    ∀ data2 : GoMessage,
      (∀ f ∈ [(⟨"a", "bool"⟩ : GoField)],
        data2.lookup f.name = ([] : GoMessage).lookup f.name) →
      encodeData dummyExt c7Types
        (fun ft v => encodeValue dummyExt c7Types 10 ft v) "T" data2 =
      encodeData dummyExt c7Types
        (fun ft v => encodeValue dummyExt c7Types 10 ft v) "T" []) :=
  ⟨rfl, c7_encode_data_fields dummyExt c7Types
    (fun ft v => encodeValue dummyExt c7Types 10 ft v) "T" [⟨"a", "bool"⟩] [] rfl⟩

/-! ## C9: mutation of the caller's schema -/

theorem fastHash_types_after (E : Ext) (fuel : Nat) (e : FastTypedDataEncoder)
    (hval : validateNoCycles e.Types = none)
    (hno : e.Types.lookup "EIP712Domain" = none) :
    (FastTypedDataEncoder.Hash E fuel e).2 =
      e.Types ++ [("EIP712Domain", e.buildDomainTypes)] := by
  unfold FastTypedDataEncoder.Hash
  rw [hval, hno]
  simp only [Option.isSome_none, Bool.false_eq_true, if_false]
  cases hashStruct E (e.Types ++ [("EIP712Domain", e.buildDomainTypes)]) fuel
      "EIP712Domain" (e.domainToMap E) with
  | error e2 => rfl
  | ok ds =>
    cases hashStruct E (e.Types ++ [("EIP712Domain", e.buildDomainTypes)]) fuel
        e.PrimaryType e.Message with
    | error e2 => rfl
    | ok mh => rfl

theorem signFast_types_after (E : Ext) (fuel : Nat) (fs : FastSigner)
    (domain : Domain) (types : Schema) (primaryType : String)
    (message : GoMessage) :
    (SignTypedDataFast E fuel fs domain types primaryType message).2 =
      (FastTypedDataEncoder.Hash E fuel ⟨types, primaryType, domain, message⟩).2 := by
  unfold SignTypedDataFast
  cases h : FastTypedDataEncoder.Hash E fuel ⟨types, primaryType, domain, message⟩ with
  | mk res types2 =>
    cases res with
    | error e => rfl
    | ok hash =>
      dsimp only
      cases E.ecSign hash fs.privateKey with
      | error e => rfl
      | ok sg => rfl

/-- C9 (corrected, amended claim).  `SignTypedData` never mutates the
caller's types map (the synthesized `EIP712Domain` entry goes into a
fresh map), but `SignTypedDataFast` does: when the caller's map lacks
`EIP712Domain` and the schema validates, the fast encoder's `Hash`
inserts the synthesized `EIP712Domain` entry into the caller's map
through the alias held by the encoder. -/
theorem c9_caller_schema (E : Ext) (fuel : Nat) (s : Signer) (fs : FastSigner)
    (domain : Domain) (types : Schema) (primaryType : String)
    (message : GoMessage)
    (hval : validateNoCycles types = none)
    (hno : types.lookup "EIP712Domain" = none) :
    (SignTypedData E s domain types primaryType message).2 = types ∧
    (SignTypedDataFast E fuel fs domain types primaryType message).2 =
      types ++ [("EIP712Domain",
        FastTypedDataEncoder.buildDomainTypes ⟨types, primaryType, domain, message⟩)] := by
  constructor
  · rfl
  · rw [signFast_types_after, fastHash_types_after E fuel _ hval hno]

/-- Counterexample for C9 as stated: a fast sign call inserts the
synthesized `EIP712Domain` entry into the caller's schema. -/
theorem c9_counterexample :
    (SignTypedDataFast dummyExt 10 ⟨0, List.replicate 20 7, 1⟩
      ⟨"T", "1", none, zeroAddress, zeroSalt⟩ [("Empty", [])] "Empty" []).2 ≠
    [("Empty", [])] := by decide

/-- Witness for C9 on a concrete schema without `EIP712Domain`. -/
theorem c9_caller_schema_witness :
    validateNoCycles [("Empty", [])] = none ∧
    ([("Empty", [])] : Schema).lookup "EIP712Domain" = none ∧
    ((SignTypedData dummyExt ⟨0, List.replicate 20 7, 1⟩
        ⟨"T", "1", none, zeroAddress, zeroSalt⟩ [("Empty", [])] "Empty" []).2 =
      [("Empty", [])] ∧
     (SignTypedDataFast dummyExt 10 ⟨0, List.replicate 20 7, 1⟩
        ⟨"T", "1", none, zeroAddress, zeroSalt⟩ [("Empty", [])] "Empty" []).2 =
      [("Empty", [])] ++ [("EIP712Domain",
        FastTypedDataEncoder.buildDomainTypes
          ⟨[("Empty", [])], "Empty", ⟨"T", "1", none, zeroAddress, zeroSalt⟩, []⟩)]) :=
  ⟨rfl, rfl, c9_caller_schema dummyExt 10 ⟨0, List.replicate 20 7, 1⟩
    ⟨0, List.replicate 20 7, 1⟩ ⟨"T", "1", none, zeroAddress, zeroSalt⟩
    [("Empty", [])] "Empty" [] rfl rfl⟩

/-! ## C4: digest composition -/

theorem hashStruct_shape (E : Ext) (types : Schema) (fuel : Nat) (t : String)
    (data : GoMessage) (out : List Nat)
    (h : hashStruct E types fuel t data = .ok out) :
    ∃ enc, out = E.keccak enc := by
  unfold hashStruct at h
  cases he : encodeData E types (fun ft v => encodeValue E types fuel ft v) t data with
  | error e => rw [he] at h; cases h
  | ok enc =>
    rw [he] at h
    cases h
    exact ⟨enc, rfl⟩

/-- C4 (confirmed).  Whenever the fast encoder's `Hash` succeeds, the
digest is `keccak256(0x19 ‖ 0x01 ‖ domainSeparator ‖ hashStruct(primaryType,
message))` where the domain separator is `hashStruct("EIP712Domain",
domainValue)`; with a 32-byte Keccak the hashed input is exactly 66 bytes
and the digest 32 bytes; the two-byte prefix is emitted unconditionally. -/
theorem c4_digest_composition (E : Ext) (fuel : Nat) (e : FastTypedDataEncoder)
    (d : List Nat) (types2 : Schema)
    (hk : ∀ bs, (E.keccak bs).length = 32)
    (hok : FastTypedDataEncoder.Hash E fuel e = (.ok d, types2)) :
    ∃ ds mh,
      hashStruct E types2 fuel "EIP712Domain" (e.domainToMap E) = .ok ds ∧
      hashStruct E types2 fuel e.PrimaryType e.Message = .ok mh ∧
      d = E.keccak ([0x19, 0x01] ++ ds ++ mh) ∧
      ([0x19, 0x01] ++ ds ++ mh).length = 66 ∧
      d.length = 32 := by
  unfold FastTypedDataEncoder.Hash at hok
  cases hval : validateNoCycles e.Types with
  | some err => rw [hval] at hok; cases hok
  | none =>
    rw [hval] at hok
    dsimp only at hok
    cases h1 : hashStruct E
        (if (e.Types.lookup "EIP712Domain").isSome then e.Types
         else e.Types ++ [("EIP712Domain", e.buildDomainTypes)]) fuel
        "EIP712Domain" (e.domainToMap E) with
    | error e2 => rw [h1] at hok; cases hok
    | ok ds =>
      rw [h1] at hok
      dsimp only at hok
      cases h2 : hashStruct E
          (if (e.Types.lookup "EIP712Domain").isSome then e.Types
           else e.Types ++ [("EIP712Domain", e.buildDomainTypes)]) fuel
          e.PrimaryType e.Message with
      | error e2 => rw [h2] at hok; cases hok
      | ok mh =>
        rw [h2] at hok
        dsimp only at hok
        obtain ⟨hd, hty⟩ := Prod.mk.injEq .. ▸ hok
        cases hok
        refine ⟨ds, mh, h1, h2, rfl, ?_, hk _⟩
        obtain ⟨enc1, henc1⟩ := hashStruct_shape E _ fuel _ _ ds h1
        obtain ⟨enc2, henc2⟩ := hashStruct_shape E _ fuel _ _ mh h2
        simp only [List.length_append, List.length_cons, List.length_nil,
          henc1, henc2, hk]

def c4Encoder : FastTypedDataEncoder :=
  ⟨[("Empty", [])], "Empty", ⟨"", "", none, zeroAddress, zeroSalt⟩, []⟩

def c4TypesAfter : Schema :=
  [("Empty", []), ("EIP712Domain", [⟨"name", "string"⟩, ⟨"version", "string"⟩])]

/-- Witness for C4 on a concrete encoder. -/
theorem c4_digest_composition_witness :
    (∀ bs, (dummyExt.keccak bs).length = 32) ∧
    FastTypedDataEncoder.Hash dummyExt 10 c4Encoder =
      (.ok (List.replicate 32 0), c4TypesAfter) ∧
    (∃ ds mh,
      hashStruct dummyExt c4TypesAfter 10 "EIP712Domain" (c4Encoder.domainToMap dummyExt) = .ok ds ∧
      hashStruct dummyExt c4TypesAfter 10 c4Encoder.PrimaryType c4Encoder.Message = .ok mh ∧
      List.replicate 32 0 = dummyExt.keccak ([0x19, 0x01] ++ ds ++ mh) ∧
      ([0x19, 0x01] ++ ds ++ mh).length = 66 ∧
      (List.replicate 32 0).length = 32) :=
  ⟨fun _ => rfl, rfl,
    c4_digest_composition dummyExt 10 c4Encoder (List.replicate 32 0) c4TypesAfter
      (fun _ => rfl) rfl⟩

/-! ## C8: signature validation in `Recover` -/

theorem adjustSigBytes_high {bs : List Nat} (h : 27 ≤ bs.getLast?.getD 0) :
    adjustSigBytes bs = bs.take 64 ++ [bs.getLast?.getD 0 - 27] := by
  rw [adjustSigBytes, if_pos h]

theorem adjustSigBytes_last {bs : List Nat} (_h65 : bs.length = 65) :
    (adjustSigBytes bs).getLast?.getD 0 =
      (if 27 ≤ bs.getLast?.getD 0 then bs.getLast?.getD 0 - 27
       else bs.getLast?.getD 0) := by
  unfold adjustSigBytes
  by_cases h : 27 ≤ bs.getLast?.getD 0
  · rw [if_pos h, if_pos h, getLast?_append_single, Option.getD_some]
  · rw [if_neg h, if_neg h]

/-- C8 (confirmed).  `Recover` and `RecoverSignatureFast` return an
error whenever the decoded signature is not exactly 65 bytes; whenever
the final byte `v` lies outside {0, 1, 27, 28}, the recovery id handed to
the external primitive is ≥ 2 (subtracting 27 when `v ≥ 27`, passing `v`
unchanged otherwise), so under the primitive's contract — it fails on
recovery ids outside {0, 1} — both functions return an error; and when
`v ≥ 27` the bytes passed to the primitive end in `v − 27`. -/
theorem c8_recover_validation (E : Ext) (fuel : Nat) (sig : Signature)
    (domain : Domain) (types : Schema) (primaryType : String)
    (message : GoMessage)
    (hstp : ∀ d sg, 2 ≤ sg.getLast?.getD 0 → ∃ e, E.sigToPub d sg = .error e) :
    (sig.bytes.length ≠ 65 →
      (∃ e1, (Signature.Recover E sig domain types primaryType message).1 = .error e1) ∧
      (∃ e2, (RecoverSignatureFast E fuel sig domain types primaryType message).1 = .error e2)) ∧
    (sig.bytes.length = 65 →
      sig.bytes.getLast?.getD 0 ∉ ([0, 1, 27, 28] : List Nat) →
      (∃ e1, (Signature.Recover E sig domain types primaryType message).1 = .error e1) ∧
      (∃ e2, (RecoverSignatureFast E fuel sig domain types primaryType message).1 = .error e2)) ∧
    (27 ≤ sig.bytes.getLast?.getD 0 →
      adjustSigBytes sig.bytes =
        sig.bytes.take 64 ++ [sig.bytes.getLast?.getD 0 - 27]) := by
  refine ⟨?_, ?_, fun h => adjustSigBytes_high h⟩
  · intro hlen
    constructor
    · cases hh : E.tdHash (recoverTD E domain types primaryType message) with
      | error e =>
        exact ⟨"failed to hash typed data: " ++ e,
          by simp only [Signature.Recover, hh]⟩
      | ok hash =>
        exact ⟨"signature must be 65 bytes",
          by simp only [Signature.Recover, hh, if_neg hlen]⟩
    · cases hh : FastTypedDataEncoder.Hash E fuel ⟨types, primaryType, domain, message⟩ with
      | mk res types2 =>
        cases res with
        | error e =>
          exact ⟨"failed to hash typed data: " ++ e,
            by simp only [RecoverSignatureFast, hh]⟩
        | ok hash =>
          exact ⟨"signature must be 65 bytes",
            by simp only [RecoverSignatureFast, hh, if_neg hlen]⟩
  · intro h65 hv
    have hrec : 2 ≤ (adjustSigBytes sig.bytes).getLast?.getD 0 := by
      rw [adjustSigBytes_last h65]
      simp only [List.mem_cons, List.not_mem_nil, or_false] at hv
      push_neg at hv
      obtain ⟨hv0, hv1, hv27, hv28⟩ := hv
      by_cases h : 27 ≤ sig.bytes.getLast?.getD 0
      · rw [if_pos h]; omega
      · rw [if_neg h]; omega
    constructor
    · cases hh : E.tdHash (recoverTD E domain types primaryType message) with
      | error e =>
        exact ⟨"failed to hash typed data: " ++ e,
          by simp only [Signature.Recover, hh]⟩
      | ok hash =>
        obtain ⟨e, he⟩ := hstp hash (adjustSigBytes sig.bytes) hrec
        exact ⟨"failed to recover public key: " ++ e,
          by simp only [Signature.Recover, hh, if_pos h65, he]⟩
    · cases hh : FastTypedDataEncoder.Hash E fuel ⟨types, primaryType, domain, message⟩ with
      | mk res types2 =>
        cases res with
        | error e =>
          exact ⟨"failed to hash typed data: " ++ e,
            by simp only [RecoverSignatureFast, hh]⟩
        | ok hash =>
          obtain ⟨e, he⟩ := hstp hash (adjustSigBytes sig.bytes) hrec
          exact ⟨"failed to recover public key: " ++ e,
            by simp only [RecoverSignatureFast, hh, if_pos h65, he]⟩

def c8BadSig : Signature :=
  ⟨List.replicate 32 1, List.replicate 32 2, 9, List.replicate 32 0,
    List.replicate 64 1 ++ [9]⟩

def c8Domain : Domain := ⟨"", "", none, zeroAddress, zeroSalt⟩

def c8Types : Schema := [("Empty", [])]

theorem c8_primitive_contract :
    ∀ d sg, 2 ≤ sg.getLast?.getD 0 → ∃ e, dummyExt.sigToPub d sg = .error e := by
  intro d sg h2
  refine ⟨"invalid recovery id", ?_⟩
  simp only [dummyExt]
  rw [if_neg (by omega)]

/-- Witness for C8: a 65-byte signature whose final byte 9 is outside
{0, 1, 27, 28}. -/
theorem c8_recover_validation_witness :
    (∀ d sg, 2 ≤ sg.getLast?.getD 0 →
      ∃ e, dummyExt.sigToPub d sg = .error e) ∧
    ((c8BadSig.bytes.length ≠ 65 →
      (∃ e1, (Signature.Recover dummyExt c8BadSig c8Domain c8Types "Empty" []).1 = .error e1) ∧
      (∃ e2, (RecoverSignatureFast dummyExt 10 c8BadSig c8Domain c8Types "Empty" []).1 = .error e2)) ∧
    (c8BadSig.bytes.length = 65 →
      c8BadSig.bytes.getLast?.getD 0 ∉ ([0, 1, 27, 28] : List Nat) →
      (∃ e1, (Signature.Recover dummyExt c8BadSig c8Domain c8Types "Empty" []).1 = .error e1) ∧
      (∃ e2, (RecoverSignatureFast dummyExt 10 c8BadSig c8Domain c8Types "Empty" []).1 = .error e2)) ∧
    (27 ≤ c8BadSig.bytes.getLast?.getD 0 →
      adjustSigBytes c8BadSig.bytes =
        c8BadSig.bytes.take 64 ++ [c8BadSig.bytes.getLast?.getD 0 - 27])) :=
  ⟨c8_primitive_contract,
    c8_recover_validation dummyExt 10 c8BadSig c8Domain c8Types "Empty" []
      c8_primitive_contract⟩

/-! ## C2 and C3: the claim-side reference graph

The claims (and spec §4.2) treat a reference "through any `[]` or `[k]`
suffix" as a custom-type reference.  The code strips only a single
trailing `[]`.  The following definitions formalize the claim side. -/

/-- Modelled from the spec (claim side): the base type with every array
suffix stripped — the characters before the first `[`. -/
def specBase (s : String) : String :=
  String.mk (s.data.takeWhile (fun c => c ≠ '['))

/-- Modelled from the spec (claim side): custom-type successors through
any array suffix. -/
def specSuccs (types : Schema) (t : String) : List String :=
  match types.lookup t with
  | none => []
  | some fields =>
    (fields.map (fun f => specBase f.type)).filter (fun b => (types.lookup b).isSome)

/-- Modelled from the spec (claim side): reachability in the full
custom-type reference graph, array suffixes included. -/
inductive SpecReach (types : Schema) : String → String → Prop where
  | single {t u : String} : u ∈ specSuccs types t → SpecReach types t u
  | head {t u v : String} : u ∈ specSuccs types t → SpecReach types u v → SpecReach types t v

def c2CexTypes : Schema := [("A", [⟨"x", "A[2]"⟩])]

/-- Counterexample for C2 as stated: the schema `{A: [x: A[2]]}` has a
direct cycle through the fixed-size array suffix `[2]` in the claim's
reference graph, yet `validateNoCycles` accepts it — `TrimSuffix(·,"[]")`
does not strip `[k]`, so `A[2]` is not recognized as a custom-type
reference. -/
theorem c2_counterexample :
    SpecReach c2CexTypes "A" "A" ∧ validateNoCycles c2CexTypes = none :=
  ⟨SpecReach.single (by decide), by decide⟩

/-- C2 (corrected, amended claim).  `validateNoCycles` returns no
error exactly when the reference graph it walks — field types with one
trailing `[]` stripped — is acyclic.  Cycles through a single trailing
`[]` are rejected; references through `[k]` or doubled suffixes are not
treated as custom-type references. -/
theorem c2_cycle_detection (types : Schema) :
    validateNoCycles types = none ↔ ∀ t, ¬ Reach types t t :=
  validateNoCycles_none_iff types

def c3CexTypes : Schema := [("A", [⟨"b", "B[2]"⟩]), ("B", [])]

/-- Counterexample for C3 as stated: in `{A: [b: B[2]], B: []}` the type
`B` is transitively referenced from `A` through the `[2]` suffix, yet it
appears neither in the computed dependency list nor in the canonical
encoding of `A`. -/
theorem c3_counterexample :
    SpecReach c3CexTypes "A" "B" ∧ "B" ≠ "A" ∧
    dependencies c3CexTypes "A" = ["A"] ∧
    encodeType c3CexTypes "A" = .ok "A(B[2] b)" :=
  ⟨SpecReach.single (by decide), by decide, by decide, rfl⟩

/-- C3 (corrected, amended claim).  For every type defined in the
schema, `encodeType` renders the primary type's declaration first —
fields in declared order, one space between type and name, one comma
between fields, no trailing comma, empty parentheses for zero fields —
followed by the declaration of every other custom type reachable through
struct fields and single trailing `[]` suffixes, in lexicographic order,
all concatenated with no separator. -/
theorem c3_encode_type (types : Schema) (t : String) (fields : List GoField)
    (hl : types.lookup t = some fields) :
    encodeType types t =
      .ok (String.join
        ((t :: (dependencies types t).filter (fun d => d ≠ t)).map (renderDecl types))) ∧
    renderDecl types t =
      t ++ "(" ++ String.intercalate ","
        (fields.map (fun f => f.type ++ " " ++ f.name)) ++ ")" ∧
    SortedLe ((dependencies types t).filter (fun d => d ≠ t)) ∧
    ∀ u, u ∈ (dependencies types t).filter (fun d => d ≠ t) ↔
      (Reach types t u ∧ u ≠ t) := by
  refine ⟨?_, ?_, ?_, ?_⟩
  · simp only [encodeType, hl]
  · simp only [renderDecl, hl, Option.getD_some]
    rfl
  · exact List.Pairwise.filter _ (dependencies_sortedLe types t)
  · intro u
    simp only [List.mem_filter, decide_eq_true_eq]
    rw [mem_dependencies_iff (by simp [hl])]
    constructor
    · rintro ⟨h1 | h2, hne⟩
      · exact absurd h1 hne
      · exact ⟨h2, hne⟩
    · rintro ⟨hr, hne⟩
      exact ⟨Or.inr hr, hne⟩

def mailTypes : Schema :=
  [("Mail", [⟨"from", "Person"⟩, ⟨"to", "Person"⟩, ⟨"contents", "string"⟩]),
   ("Person", [⟨"name", "string"⟩, ⟨"wallet", "address"⟩])]

/-- Witness for C3 on the EIP-712 Mail schema. -/
theorem c3_encode_type_witness :
    mailTypes.lookup "Mail" =
      some [⟨"from", "Person"⟩, ⟨"to", "Person"⟩, ⟨"contents", "string"⟩] ∧
    (encodeType mailTypes "Mail" =
      .ok (String.join
        (("Mail" :: (dependencies mailTypes "Mail").filter (fun d => d ≠ "Mail")).map
          (renderDecl mailTypes))) ∧
    renderDecl mailTypes "Mail" =
      "Mail" ++ "(" ++ String.intercalate ","
        ([(⟨"from", "Person"⟩ : GoField), ⟨"to", "Person"⟩, ⟨"contents", "string"⟩].map
          (fun f => f.type ++ " " ++ f.name)) ++ ")" ∧
    SortedLe ((dependencies mailTypes "Mail").filter (fun d => d ≠ "Mail")) ∧
    ∀ u, u ∈ (dependencies mailTypes "Mail").filter (fun d => d ≠ "Mail") ↔
      (Reach mailTypes "Mail" u ∧ u ≠ "Mail")) :=
  ⟨rfl, c3_encode_type mailTypes "Mail"
    [⟨"from", "Person"⟩, ⟨"to", "Person"⟩, ⟨"contents", "string"⟩] rfl⟩

/-! ## C1: sign/recover roundtrip -/

/-- `Recover` rebuilds exactly the typed data that `SignTypedData`
hashed: the method and static domain/type builders coincide. -/
theorem recoverTD_eq_signTD (E : Ext) (s : Signer) (domain : Domain)
    (types : Schema) (primaryType : String) (message : GoMessage) :
    recoverTD E domain types primaryType message =
      signTypedDataTD E s domain types primaryType message := rfl

/-- C1 (confirmed).  Under the contracts of the external secp256k1
primitives — `crypto.Sign` yields a 65-byte signature with recovery id in
{0, 1}, and `crypto.SigToPub` / `PubkeyToAddress` recover the signing
key's address from that signature over the same digest — every signature
produced by `SignTypedData` recovers to the signer's address, and
`VerifySignature` against the signer's address returns true. -/
theorem c1_sign_recover_roundtrip (E : Ext) (s : Signer) (domain : Domain)
    (types : Schema) (primaryType : String) (message : GoMessage)
    (sig : Signature)
    (hsig : ∀ d sg, E.ecSign d s.privateKey = .ok sg →
      sg.length = 65 ∧ (sg.getLast?.getD 0 = 0 ∨ sg.getLast?.getD 0 = 1) ∧
      ∃ p, E.sigToPub d sg = .ok p ∧ E.pubToAddr p = s.address)
    (hok : (SignTypedData E s domain types primaryType message).1 = .ok sig) :
    (Signature.Recover E sig domain types primaryType message).1 = .ok s.address ∧
    (VerifySignature E sig s.address domain types primaryType message).1 = .ok true := by
  simp only [SignTypedData] at hok
  cases hval : validateNoCycles types with
  | some err => rw [hval] at hok; cases hok
  | none =>
    rw [hval] at hok
    dsimp only at hok
    cases hh : E.tdHash (signTypedDataTD E s domain types primaryType message) with
    | error e => rw [hh] at hok; cases hok
    | ok hash =>
      rw [hh] at hok
      dsimp only at hok
      cases hs : E.ecSign hash s.privateKey with
      | error e => rw [hs] at hok; cases hok
      | ok sg =>
        rw [hs] at hok
        dsimp only at hok
        obtain ⟨hlen, hv01, p, hstp, haddr⟩ := hsig hash sg hs
        cases hok
        have hbytes_len : (sg.take 64 ++ [sg.getLast?.getD 0 + 27]).length = 65 := by
          simp only [List.length_append, List.length_take, List.length_cons,
            List.length_nil, hlen]
          omega
        have hlast : (sg.take 64 ++ [sg.getLast?.getD 0 + 27]).getLast?.getD 0 =
            sg.getLast?.getD 0 + 27 := by
          rw [getLast?_append_single, Option.getD_some]
        have htake : (sg.take 64 ++ [sg.getLast?.getD 0 + 27]).take 64 = sg.take 64 := by
          refine List.take_left' ?_
          simp only [List.length_take, hlen]
          omega
        have hadj : adjustSigBytes (sg.take 64 ++ [sg.getLast?.getD 0 + 27]) = sg := by
          rw [adjustSigBytes, if_pos (by rw [hlast]; omega), hlast, htake,
            Nat.add_sub_cancel]
          exact take64_append_last hlen
        have hrec : (Signature.Recover E
            ⟨(sg.take 64 ++ [sg.getLast?.getD 0 + 27]).take 32,
             ((sg.take 64 ++ [sg.getLast?.getD 0 + 27]).drop 32).take 32,
             sg.getLast?.getD 0 + 27, hash,
             sg.take 64 ++ [sg.getLast?.getD 0 + 27]⟩
            domain types primaryType message).1 = .ok s.address := by
          simp only [Signature.Recover, recoverTD_eq_signTD E s, hh,
            if_pos hbytes_len, hadj, hstp, haddr]
        refine ⟨hrec, ?_⟩
        simp only [VerifySignature, hrec]
        simp

def c1Signer : Signer := ⟨0, List.replicate 20 7, 1⟩

def c1Domain : Domain := ⟨"", "", none, zeroAddress, zeroSalt⟩

def c1Types : Schema := [("Empty", [])]

def c1Sig : Signature :=
  ⟨List.replicate 32 9, List.replicate 32 9, 27, List.replicate 32 0,
    List.replicate 64 9 ++ [27]⟩

theorem c1_primitive_contract :
    ∀ d sg, dummyExt.ecSign d c1Signer.privateKey = .ok sg →
      sg.length = 65 ∧ (sg.getLast?.getD 0 = 0 ∨ sg.getLast?.getD 0 = 1) ∧
      ∃ p, dummyExt.sigToPub d sg = .ok p ∧
        dummyExt.pubToAddr p = c1Signer.address := by
  intro d sg h
  cases h
  exact ⟨rfl, Or.inl rfl, 0, rfl, rfl⟩

/-- Witness for C1 on a concrete signer, schema and message. -/
theorem c1_sign_recover_roundtrip_witness :
    (SignTypedData dummyExt c1Signer c1Domain c1Types "Empty" []).1 = .ok c1Sig ∧
    ((Signature.Recover dummyExt c1Sig c1Domain c1Types "Empty" []).1 =
        .ok c1Signer.address ∧
      (VerifySignature dummyExt c1Sig c1Signer.address c1Domain c1Types
        "Empty" []).1 = .ok true) :=
  ⟨rfl, c1_sign_recover_roundtrip dummyExt c1Signer c1Domain c1Types "Empty" []
    c1Sig c1_primitive_contract rfl⟩

end Eip712
